import Mathlib

/-!
Verification of the bcup directory-backup engine.

The development shallowly embeds the core of the engine:

* catalog entries (`Entry`) with their kind and relative path, mirroring the
  `File`, `Symlink` and `Directory` classes of `bcup/diff.py`;
* a directory tree (`FS`) as a finite association of relative paths
  (lists of name segments) to filesystem nodes;
* the change classifier (`filter_changed_files`, `filter_changed_files_in_tar`,
  `create_diff_map`) of `bcup/diff.py` and `bcup/backup.py`;
* the copy and delete helpers (`copy_files`, `remove_files`) of `bcup/diff.py`;
* the delta-chain copy step (`diff_copy_data`) of `DiffCopyMixin._copy_data`;
* the orchestration of `BaseBackup.make` and the two retention mixins;
* the snapshot key construction of `BaseBackup._build_key`.

Paths are relative paths represented as the list of their name segments;
joining paths is list append, and the trailing-separator convention of the
`Directory` class is represented by the entry kind.
-/

namespace Bcup

/-- Kind of a catalog entry, mirroring the three classes `File`, `Symlink`
and `Directory` of `bcup/diff.py`. -/
inductive FileKind where
  | file
  | symlink
  | directory
deriving DecidableEq

/-- A path relative to some root directory, as the list of its name
segments.  `os.path.join` corresponds to list append and the name-wise
split performed by `BaseFs.is_path_allowed` is the list of segments. -/
abbrev Path := List String

/-- A catalog entry.  Equality and hashing of the Python file objects is by
class and path (`BaseFile.__eq__`, `BaseFile.__hash__`), so an entry is
identified by the pair of its kind and its path. -/
structure Entry where
  kind : FileKind
  path : Path
deriving DecidableEq

/-- One filesystem object: a regular file carries its byte content and its
stat modification time (the two ingredients of `filecmp`'s stat signature
besides the size, which equals the length of the content), a symlink
carries its literal target string, a directory carries nothing. -/
inductive Node where
  | file (content : List Nat) (mtime : Nat)
  | symlink (target : String)
  | dir
deriving DecidableEq

/-- The entry kind under which a node is catalogued by `collect_paths`. -/
def nodeKind : Node → FileKind
  | .file _ _ => .file
  | .symlink _ => .symlink
  | .dir => .directory

/-- A directory tree: a finite association of relative paths to nodes. -/
abbrev FS := List (Path × Node)

/-- Look up the node stored at a path. -/
def fsGet (fs : FS) (p : Path) : Option Node :=
  (fs.find? (fun pr => decide (pr.1 = p))).map (·.2)

/-- Store a node at a path, replacing any previous node there. -/
def fsSet (fs : FS) (p : Path) (n : Node) : FS :=
  (p, n) :: fs.filter (fun pr => !decide (pr.1 = p))

/-- Delete the node stored at a path. -/
def fsDel (fs : FS) (p : Path) : FS :=
  fs.filter (fun pr => !decide (pr.1 = p))

/-- `os.listdir` of a directory is non-empty exactly when some other stored
path strictly extends it. -/
def fsHasBelow (fs : FS) (p : Path) : Bool :=
  fs.any (fun pr => p.isPrefixOf pr.1 && !decide (pr.1 = p))

/-- The association list stores each path at most once. -/
def fsWf (fs : FS) : Prop := (fs.map Prod.fst).Nodup

theorem fsGet_nil (p : Path) : fsGet [] p = none := rfl

theorem fsGet_cons (q : Path) (n : Node) (fs : FS) (p : Path) :
    fsGet ((q, n) :: fs) p = if q = p then some n else fsGet fs p := by
  by_cases h : q = p <;> simp [fsGet, List.find?, h]

theorem fsGet_set_self (fs : FS) (p : Path) (n : Node) :
    fsGet (fsSet fs p n) p = some n := by
  simp [fsSet, fsGet_cons]

theorem fsGet_filter (fs : FS) (ok : Path × Node → Bool) (p : Path)
    (h : ∀ n : Node, ok (p, n) = true) :
    fsGet (fs.filter ok) p = fsGet fs p := by
  induction fs with
  | nil => rfl
  | cons pr fs ih =>
    by_cases hp : pr.1 = p
    · have : ok pr = true := by rw [show pr = (p, pr.2) by rw [← hp]]; exact h pr.2
      simp only [List.filter_cons, this, if_true]
      rw [show pr = (p, pr.2) by rw [← hp]]
      simp [fsGet_cons]
    · by_cases hok : ok pr = true
      · simp only [List.filter_cons, hok, if_true]
        rcases pr with ⟨q, m⟩
        rw [fsGet_cons, fsGet_cons, if_neg hp, if_neg hp]
        exact ih
      · simp only [List.filter_cons, hok, if_false]
        rcases pr with ⟨q, m⟩
        rw [fsGet_cons, if_neg hp]
        exact ih

theorem fsGet_set_ne (fs : FS) (p q : Path) (n : Node) (h : p ≠ q) :
    fsGet (fsSet fs p n) q = fsGet fs q := by
  rw [fsSet, fsGet_cons, if_neg h]
  exact fsGet_filter fs _ q (by intro m; simp [h]; exact fun hc => h hc.symm)

theorem fsGet_del_self (fs : FS) (p : Path) : fsGet (fsDel fs p) p = none := by
  rw [fsDel]
  induction fs with
  | nil => rfl
  | cons pr fs ih =>
    by_cases hp : pr.1 = p
    · simpa [List.filter_cons, hp] using ih
    · simp only [List.filter_cons, show (!decide (pr.1 = p)) = true by simp [hp], if_true]
      rcases pr with ⟨q, m⟩
      rw [fsGet_cons, if_neg hp]
      exact ih

theorem fsGet_del_ne (fs : FS) (p q : Path) (h : p ≠ q) :
    fsGet (fsDel fs p) q = fsGet fs q := by
  rw [fsDel]
  exact fsGet_filter fs _ q (by intro m; simp; exact fun hc => h hc.symm)

/-- The catalog of a tree, as built by `collect_paths` in `bcup/diff.py`:
one entry per stored object, its kind read off the object itself (a symlink
is recorded as a symlink even when it targets a directory and is not
descended into). -/
def collect_paths (fs : FS) : Finset Entry :=
  (fs.map (fun pr => Entry.mk (nodeKind pr.2) pr.1)).toFinset

theorem mem_collect_paths (fs : FS) (e : Entry) :
    e ∈ collect_paths fs ↔ ∃ pr ∈ fs, e = Entry.mk (nodeKind pr.2) pr.1 := by
  simp only [collect_paths, List.mem_toFinset, List.mem_map]
  constructor
  · rintro ⟨pr, hpr, rfl⟩; exact ⟨pr, hpr, rfl⟩
  · rintro ⟨pr, hpr, rfl⟩; exact ⟨pr, hpr, rfl⟩

theorem fsGet_mem (fs : FS) (p : Path) (n : Node) (h : fsGet fs p = some n) :
    (p, n) ∈ fs := by
  induction fs with
  | nil => simp [fsGet] at h
  | cons pr fs ih =>
    rcases pr with ⟨q, m⟩
    rw [fsGet_cons] at h
    by_cases hq : q = p
    · rw [if_pos hq] at h
      rw [Option.some.injEq] at h
      subst hq h
      exact List.mem_cons_self _ _
    · rw [if_neg hq] at h
      exact List.mem_cons_of_mem _ (ih h)

theorem mem_fsGet (fs : FS) (hwf : fsWf fs) (p : Path) (n : Node)
    (h : (p, n) ∈ fs) : fsGet fs p = some n := by
  induction fs with
  | nil => simp at h
  | cons pr fs ih =>
    rcases pr with ⟨q, m⟩
    rw [fsGet_cons]
    rcases List.mem_cons.mp h with heq | htl
    · rw [Prod.mk.injEq] at heq
      rw [if_pos heq.1.symm, heq.2]
    · by_cases hq : q = p
      · exfalso
        subst hq
        have : q ∈ fs.map Prod.fst := List.mem_map.mpr ⟨(q, n), htl, rfl⟩
        exact (List.nodup_cons.mp hwf).1 this
      · rw [if_neg hq]
        exact ih (List.nodup_cons.mp hwf).2 htl

/-! Byte comparison.  `_compare_file_objects` in `bcup/diff.py` reads both
streams in chunks of `chunk_size` bytes (default 10000) and reports equality;
`filecmp.cmp` (Python standard library, called with its default
`shallow=True` by `filter_changed_files`) first compares the stat signatures
(file size and modification time) and only reads the bytes, in chunks of
8192, when the signatures differ but the sizes agree. -/

/-- The loop of `_compare_file_objects`: compare two byte streams chunk by
chunk; any differing chunk means inequality, two simultaneously exhausted
streams mean equality.  The Python `while True` loop terminates because
every iteration past the first guard consumes at least one byte of the
first stream, so its iteration count is bounded by the stream length; the
bound is given here as explicit fuel (the loop never runs out of it). -/
def compare_loop (chunkSize : Nat) : Nat → List Nat → List Nat → Bool
  | 0, _, _ => true
  | fuel + 1, c1, c2 =>
    if c1.take chunkSize ≠ c2.take chunkSize then false
    else if c1.take chunkSize = [] ∧ c2.take chunkSize = [] then true
    else compare_loop chunkSize fuel (c1.drop chunkSize) (c2.drop chunkSize)

/-- `_compare_file_objects(fileobj1, fileobj2, chunk_size)` of
`bcup/diff.py`, on the byte contents of the two streams. -/
def compare_file_objects (chunkSize : Nat) (c1 c2 : List Nat) : Bool :=
  compare_loop chunkSize (c1.length + 1) c1 c2

theorem compare_loop_iff (chunkSize : Nat) (hk : 0 < chunkSize) :
    ∀ (fuel : Nat) (c1 c2 : List Nat), c1.length < fuel →
      (compare_loop chunkSize fuel c1 c2 = true ↔ c1 = c2) := by
  intro fuel
  induction fuel with
  | zero => intro c1 c2 h; omega
  | succ fuel ih =>
    intro c1 c2 hlen
    rw [compare_loop]
    by_cases h1 : c1.take chunkSize ≠ c2.take chunkSize
    · rw [if_pos h1]
      constructor
      · intro h; cases h
      · rintro rfl; exact absurd rfl h1
    · rw [if_neg h1]
      rw [not_not] at h1
      by_cases h2 : c1.take chunkSize = [] ∧ c2.take chunkSize = []
      · rw [if_pos h2]
        have e1 : c1 = [] := by
          rcases c1 with _ | ⟨a, c1⟩
          · rfl
          · exfalso
            have := h2.1
            rcases chunkSize with _ | k
            · omega
            · simp [List.take] at this
        have e2 : c2 = [] := by
          rcases c2 with _ | ⟨a, c2⟩
          · rfl
          · exfalso
            have := h2.2
            rcases chunkSize with _ | k
            · omega
            · simp [List.take] at this
        simp [e1, e2]
      · rw [if_neg h2]
        have hne : c1.take chunkSize ≠ [] := by
          intro hc
          exact h2 ⟨hc, by rw [← h1]; exact hc⟩
        have hc1 : c1 ≠ [] := by rintro rfl; simp at hne
        have hdrop : (c1.drop chunkSize).length < fuel := by
          have : 0 < c1.length := List.length_pos.mpr hc1
          simp only [List.length_drop]
          omega
        rw [ih (c1.drop chunkSize) (c2.drop chunkSize) hdrop]
        constructor
        · intro hd
          rw [← List.take_append_drop chunkSize c1,
            ← List.take_append_drop chunkSize c2, h1, hd]
        · rintro rfl; rfl

/-- The chunked stream comparison decides exactly byte-for-byte equality
(for any positive chunk size). -/
theorem compare_file_objects_iff (chunkSize : Nat) (hk : 0 < chunkSize)
    (c1 c2 : List Nat) : compare_file_objects chunkSize c1 c2 = true ↔ c1 = c2 :=
  compare_loop_iff chunkSize hk (c1.length + 1) c1 c2 (Nat.lt_succ_self _)

/-- Python's `filecmp.cmp(f1, f2)` with its default `shallow=True`, for two
regular files: if the stat signatures (size, mtime) coincide the files are
reported equal without reading them; otherwise differing sizes mean
inequality, and equal sizes trigger a chunked byte comparison with buffer
size 8192 (`filecmp._do_cmp`, the same loop shape as
`_compare_file_objects`). -/
def filecmp_cmp (c1 : List Nat) (m1 : Nat) (c2 : List Nat) (m2 : Nat) : Bool :=
  if c1.length = c2.length ∧ m1 = m2 then true
  else if c1.length ≠ c2.length then false
  else compare_file_objects 8192 c1 c2

theorem filecmp_cmp_iff (c1 : List Nat) (m1 : Nat) (c2 : List Nat) (m2 : Nat) :
    filecmp_cmp c1 m1 c2 m2 = true ↔
      ((c1.length = c2.length ∧ m1 = m2) ∨ c1 = c2) := by
  unfold filecmp_cmp
  by_cases h : c1.length = c2.length ∧ m1 = m2
  · simp [h]
  · rw [if_neg h]
    by_cases hl : c1.length = c2.length
    · rw [if_neg (by simpa using hl), compare_file_objects_iff 8192 (by norm_num)]
      by_cases hc : c1 = c2 <;> simp [h, hc]
    · rw [if_pos (by simpa using hl)]
      have : c1 ≠ c2 := fun he => hl (by rw [he])
      simp [h, this]

/-! The change classifier of `bcup/diff.py`.  `filter_changed_files`
inspects every entry of the similar set: `File` entries are handed to
`filecmp.cmp` on the two directories, `Symlink` entries are compared by
`os.readlink` target, `Directory` entries are never classified as changed.
A failing access (a catalogued path that cannot be read) raises out of the
loop, so the whole call either fails or returns the filtered set; the
embedding models the call as `Except`, erring exactly when some entry's
access fails.  `filter_changed_files_in_tar` does the same against a tar
archive, using `_compare_file_objects` on the extracted stream. -/

/-- Access performed by `filter_changed_files` succeeds: for a `File` entry
both `os.stat` calls inside `filecmp.cmp` succeed (some node is present on
each side), for a `Symlink` entry both `os.readlink` calls succeed (a
symlink node is present on each side).  Cross-kind situations in which a
`File` entry meets a symlink node (where `os.stat` would follow the link)
do not arise under the catalog coherence hypotheses of the theorems
below. -/
def entry_access_ok (fs1 fs2 : FS) (e : Entry) : Bool :=
  match e.kind with
  | .file => (fsGet fs1 e.path).isSome && (fsGet fs2 e.path).isSome
  | .symlink =>
      (match fsGet fs1 e.path with | some (.symlink _) => true | _ => false) &&
      (match fsGet fs2 e.path with | some (.symlink _) => true | _ => false)
  | .directory => true

/-- The changed test of `filter_changed_files` for one entry: a `File`
entry is changed when `filecmp.cmp` denies equality (a node that is not a
regular file makes `filecmp.cmp` return `False`, hence changed), a
`Symlink` entry when the two link targets differ, a `Directory` entry
never. -/
def entry_changed (fs1 fs2 : FS) (e : Entry) : Bool :=
  match e.kind with
  | .file =>
    match fsGet fs1 e.path, fsGet fs2 e.path with
    | some (.file c1 m1), some (.file c2 m2) => !filecmp_cmp c1 m1 c2 m2
    | _, _ => true
  | .symlink =>
    match fsGet fs1 e.path, fsGet fs2 e.path with
    | some (.symlink t1), some (.symlink t2) => decide (t1 ≠ t2)
    | _, _ => false
  | .directory => false

/-- `filter_changed_files(files, path1, path2)` of `bcup/diff.py`: `fs1` is
the tree under `path1` (the live source), `fs2` the tree under `path2`
(the last backup's data). -/
def filter_changed_files (files : Finset Entry) (fs1 fs2 : FS) :
    Except Unit (Finset Entry) :=
  if ∀ e ∈ files, entry_access_ok fs1 fs2 e = true then
    .ok (files.filter (fun e => entry_changed fs1 fs2 e = true))
  else .error ()

/-- Access performed by `filter_changed_files_in_tar` succeeds: for a
`File` entry, `open` on the directory side and `getmember`/`extractfile`
on the archive side both yield a readable regular file; for a `Symlink`
entry, `os.readlink` on the directory side and the member's `linkname` on
the archive side are both available. -/
def entry_access_ok_tar (dirFs tarFs : FS) (e : Entry) : Bool :=
  match e.kind with
  | .file =>
      (match fsGet dirFs e.path with | some (.file _ _) => true | _ => false) &&
      (match fsGet tarFs e.path with | some (.file _ _) => true | _ => false)
  | .symlink =>
      (match fsGet dirFs e.path with | some (.symlink _) => true | _ => false) &&
      (match fsGet tarFs e.path with | some (.symlink _) => true | _ => false)
  | .directory => true

/-- The changed test of `filter_changed_files_in_tar` for one entry: a
`File` entry is changed when `_compare_file_objects` (chunk size 10000)
denies byte equality, a `Symlink` entry when the targets differ, a
`Directory` entry never. -/
def entry_changed_tar (dirFs tarFs : FS) (e : Entry) : Bool :=
  match e.kind with
  | .file =>
    match fsGet dirFs e.path, fsGet tarFs e.path with
    | some (.file c1 _), some (.file c2 _) => !compare_file_objects 10000 c1 c2
    | _, _ => false
  | .symlink =>
    match fsGet dirFs e.path, fsGet tarFs e.path with
    | some (.symlink t1), some (.symlink t2) => decide (t1 ≠ t2)
    | _, _ => false
  | .directory => false

/-- `filter_changed_files_in_tar(files, dir_path, tar_path)` of
`bcup/diff.py`: `dirFs` is the live tree under `dir_path`, `tarFs` the
member map of the archive (member names relative to the archive's root
folder). -/
def filter_changed_files_in_tar (files : Finset Entry) (dirFs tarFs : FS) :
    Except Unit (Finset Entry) :=
  if ∀ e ∈ files, entry_access_ok_tar dirFs tarFs e = true then
    .ok (files.filter (fun e => entry_changed_tar dirFs tarFs e = true))
  else .error ()

instance {α : Type} [DecidableEq α] : DecidableEq (Except Unit α) := fun a b =>
  match a, b with
  | .ok x, .ok y =>
      if h : x = y then isTrue (by rw [h]) else
        isFalse (by intro hc; cases hc; exact h rfl)
  | .error x, .error y => isTrue (by cases x; cases y; rfl)
  | .ok _, .error _ => isFalse (by intro h; cases h)
  | .error _, .ok _ => isFalse (by intro h; cases h)

/-- The diff map built by `BaseBackup._create_diff_map`: the four keys
`added`, `removed`, `changed`, `same` of the Python dictionary. -/
structure DiffMap where
  added : Finset Entry
  removed : Finset Entry
  changed : Finset Entry
  same : Finset Entry
deriving DecidableEq

/-- `BaseBackup._create_diff_map(last_data_path, paths)` of
`bcup/backup.py`: the previous catalog is collected from the last backup's
data tree, then `added`/`removed`/`similar` are set differences of the two
catalogs, the changed set is computed by
`filter_changed_files(similar, source, last_data_path)`, and
`same = similar - changed`. -/
def create_diff_map (lastFs : FS) (paths : Finset Entry) (srcFs : FS) :
    Except Unit DiffMap :=
  match filter_changed_files (collect_paths lastFs ∩ paths) srcFs lastFs with
  | .error e => .error e
  | .ok changed =>
      .ok ⟨paths \ collect_paths lastFs, collect_paths lastFs \ paths, changed,
        (collect_paths lastFs ∩ paths) \ changed⟩

theorem entry_changed_not_dir (fs1 fs2 : FS) (e : Entry)
    (h : entry_changed fs1 fs2 e = true) : e.kind ≠ .directory := by
  intro hk
  rcases e with ⟨k, p⟩
  simp only at hk
  subst hk
  simp [entry_changed] at h

/-- C3: for every pair of catalogs of the same root, the diff map computed
by `_create_diff_map` has pairwise disjoint parts whose union is exactly
`previous ∪ current`; `added = current ∖ previous`,
`removed = previous ∖ current`, `changed ⊆ previous ∩ current`, and no
`Directory` entry is ever in the changed part. -/
theorem C3_diff_partition (lastFs : FS) (paths : Finset Entry) (srcFs : FS)
    (dm : DiffMap) (h : create_diff_map lastFs paths srcFs = .ok dm) :
    Disjoint dm.added dm.removed ∧ Disjoint dm.added dm.changed ∧
    Disjoint dm.added dm.same ∧ Disjoint dm.removed dm.changed ∧
    Disjoint dm.removed dm.same ∧ Disjoint dm.changed dm.same ∧
    dm.added ∪ dm.removed ∪ dm.changed ∪ dm.same =
      collect_paths lastFs ∪ paths ∧
    dm.added = paths \ collect_paths lastFs ∧
    dm.removed = collect_paths lastFs \ paths ∧
    dm.changed ⊆ collect_paths lastFs ∩ paths ∧
    ∀ e ∈ dm.changed, e.kind ≠ .directory := by
  generalize hlp : collect_paths lastFs = lastPaths at *
  unfold create_diff_map at h
  rw [hlp] at h
  rcases hf : filter_changed_files (lastPaths ∩ paths) srcFs lastFs with e | changed
  · rw [hf] at h; cases h
  · rw [hf] at h
    cases h
    unfold filter_changed_files at hf
    by_cases hacc : ∀ e ∈ lastPaths ∩ paths, entry_access_ok srcFs lastFs e = true
    · rw [if_pos hacc] at hf
      cases hf
      refine ⟨?_, ?_, ?_, ?_, ?_, ?_, ?_, rfl, rfl, ?_, ?_⟩
      · rw [Finset.disjoint_left]
        intro e he1 he2
        simp only [Finset.mem_sdiff] at he1 he2
        tauto
      · rw [Finset.disjoint_left]
        intro e he1 he2
        simp only [Finset.mem_sdiff, Finset.mem_filter, Finset.mem_inter]
          at he1 he2
        tauto
      · rw [Finset.disjoint_left]
        intro e he1 he2
        simp only [Finset.mem_sdiff, Finset.mem_filter, Finset.mem_inter]
          at he1 he2
        tauto
      · rw [Finset.disjoint_left]
        intro e he1 he2
        simp only [Finset.mem_sdiff, Finset.mem_filter, Finset.mem_inter]
          at he1 he2
        tauto
      · rw [Finset.disjoint_left]
        intro e he1 he2
        simp only [Finset.mem_sdiff, Finset.mem_filter, Finset.mem_inter]
          at he1 he2
        tauto
      · rw [Finset.disjoint_left]
        intro e he1 he2
        simp only [Finset.mem_sdiff, Finset.mem_filter, Finset.mem_inter]
          at he1 he2
        tauto
      · ext e
        simp only [Finset.mem_union, Finset.mem_sdiff, Finset.mem_filter,
          Finset.mem_inter]
        by_cases hl : e ∈ lastPaths <;>
          by_cases hp : e ∈ paths <;>
          by_cases hc : entry_changed srcFs lastFs e = true <;>
          tauto
      · intro e he
        exact (Finset.mem_filter.mp he).1
      · intro e he
        exact entry_changed_not_dir _ _ _ (Finset.mem_filter.mp he).2
    · rw [if_neg hacc] at hf
      cases hf

/-- Concrete input for the C3 witness: one common file whose bytes differ. -/
def c3Cat : Finset Entry := {Entry.mk .file ["a"]}

def c3Src : FS := [(["a"], Node.file [1] 1)]

def c3Last : FS := [(["a"], Node.file [2] 2)]

def c3Dm : DiffMap := ⟨∅, ∅, {Entry.mk .file ["a"]}, ∅⟩

theorem C3_diff_partition_witness :
    Disjoint c3Dm.added c3Dm.removed ∧ Disjoint c3Dm.added c3Dm.changed ∧
    Disjoint c3Dm.added c3Dm.same ∧ Disjoint c3Dm.removed c3Dm.changed ∧
    Disjoint c3Dm.removed c3Dm.same ∧ Disjoint c3Dm.changed c3Dm.same ∧
    c3Dm.added ∪ c3Dm.removed ∪ c3Dm.changed ∪ c3Dm.same =
      collect_paths c3Last ∪ c3Cat ∧
    c3Dm.added = c3Cat \ collect_paths c3Last ∧
    c3Dm.removed = collect_paths c3Last \ c3Cat ∧
    c3Dm.changed ⊆ collect_paths c3Last ∩ c3Cat ∧
    ∀ e ∈ c3Dm.changed, e.kind ≠ .directory :=
  C3_diff_partition c3Last c3Cat c3Src c3Dm (by decide)

/-- C2 counterexample: two catalogued files whose byte sequences differ
(`[0]` against `[1]`) but whose stat signatures agree (equal length, equal
mtime) are classified as unchanged by the plain-filesystem backend, because
`filter_changed_files` calls `filecmp.cmp` with its default `shallow=True`.
The claim demands that they be classified as changed. -/
theorem C2_counterexample :
    filter_changed_files {Entry.mk .file ["a"]}
        [(["a"], Node.file [0] 7)] [(["a"], Node.file [1] 7)] = .ok ∅ ∧
    ([0] : List Nat) ≠ [1] :=
  ⟨by decide, by decide⟩

/-- C2 amended: for a `File` entry present in both catalogs, the
compressed-archive backend classifies it as changed exactly when the byte
sequences differ (streamed in fixed-size chunks), but the plain-filesystem
backend classifies it as changed exactly when the byte sequences differ
AND the stat signatures (size, mtime) differ — equal signatures
short-circuit `filecmp.cmp` without reading content. -/
theorem C2_byte_compare_amended (files : Finset Entry)
    (fs1 fs2 dirFs tarFs : FS) (e : Entry) (he : e ∈ files)
    (c1 : List Nat) (m1 : Nat) (c2 : List Nat) (m2 : Nat)
    (h1 : fsGet fs1 e.path = some (.file c1 m1))
    (h2 : fsGet fs2 e.path = some (.file c2 m2))
    (d1 : List Nat) (n1 : Nat) (d2 : List Nat) (n2 : Nat)
    (g1 : fsGet dirFs e.path = some (.file d1 n1))
    (g2 : fsGet tarFs e.path = some (.file d2 n2))
    (hk : e.kind = .file)
    (r : Finset Entry) (hr : filter_changed_files files fs1 fs2 = .ok r)
    (rt : Finset Entry)
    (hrt : filter_changed_files_in_tar files dirFs tarFs = .ok rt) :
    (e ∈ r ↔ (c1 ≠ c2 ∧ (c1.length ≠ c2.length ∨ m1 ≠ m2))) ∧
    (e ∈ rt ↔ d1 ≠ d2) := by
  unfold filter_changed_files at hr
  unfold filter_changed_files_in_tar at hrt
  by_cases hacc : ∀ x ∈ files, entry_access_ok fs1 fs2 x = true
  · rw [if_pos hacc] at hr
    by_cases hacct : ∀ x ∈ files, entry_access_ok_tar dirFs tarFs x = true
    · rw [if_pos hacct] at hrt
      cases hr
      cases hrt
      constructor
      · rw [Finset.mem_filter]
        rcases e with ⟨k, p⟩
        simp only at hk
        subst hk
        simp only [entry_changed] at *
        rw [h1, h2]
        simp only [he, true_and]
        rw [Bool.not_eq_eq_eq_not, Bool.not_true, Bool.eq_false_iff,
          Ne, filecmp_cmp_iff]
        constructor
        · intro hn
          constructor
          · intro hc; exact hn (Or.inr hc)
          · by_cases hl : c1.length = c2.length
            · refine Or.inr fun hm => hn (Or.inl ⟨hl, hm⟩)
            · exact Or.inl hl
        · rintro ⟨hc, hlm⟩ (⟨hl, hm⟩ | he)
          · rcases hlm with h | h
            · exact h hl
            · exact h hm
          · exact hc he
      · rw [Finset.mem_filter]
        rcases e with ⟨k, p⟩
        simp only at hk
        subst hk
        simp only [entry_changed_tar] at *
        rw [g1, g2]
        simp only [he, true_and]
        rw [Bool.not_eq_eq_eq_not, Bool.not_true, Bool.eq_false_iff,
          Ne, compare_file_objects_iff 10000 (by norm_num)]
    · rw [if_neg hacct] at hrt
      cases hrt
  · rw [if_neg hacc] at hr
    cases hr

/-- Concrete inputs for the C2 witness. -/
def c2Fs1 : FS := [(["a"], Node.file [0] 7)]

def c2Fs2 : FS := [(["a"], Node.file [1] 7)]

theorem C2_byte_compare_amended_witness :
    (Entry.mk .file ["a"] ∈ (∅ : Finset Entry) ↔
      (([0] : List Nat) ≠ [1] ∧
        (([0] : List Nat).length ≠ ([1] : List Nat).length ∨ (7 : Nat) ≠ 7))) ∧
    (Entry.mk .file ["a"] ∈ ({Entry.mk .file ["a"]} : Finset Entry) ↔
      ([0] : List Nat) ≠ [1]) :=
  C2_byte_compare_amended {Entry.mk .file ["a"]} c2Fs1 c2Fs2 c2Fs1 c2Fs2
    (Entry.mk .file ["a"]) (by decide) [0] 7 [1] 7 (by decide) (by decide)
    [0] 7 [1] 7 (by decide) (by decide) rfl ∅ (by decide)
    {Entry.mk .file ["a"]} (by decide)

/-! Sorting order.  `copy_files` and `remove_files` sort the path strings
of the file objects before processing (`paths.sort()`), ascending for
copies so that a directory is created before its members, descending for
removals so that a directory's members are removed before the directory.
Python compares strings lexicographically by code point, and path strings
with the segment separator compare so that a strict prefix path sorts
before any of its extensions, which is the only property of the sort order
the algorithms rely on.  The embedding sorts segment lists by code-point
lexicographic order on segments, which has the same strict-prefix
property. -/

/-- Generic lexicographic strict comparison of lists by a comparator on
elements. -/
def lexLtB {α : Type} [DecidableEq α] (ltB : α → α → Bool) :
    List α → List α → Bool
  | _, [] => false
  | [], _ :: _ => true
  | a :: s, b :: t => if a = b then lexLtB ltB s t else ltB a b

theorem lexLtB_nil_left {α : Type} [DecidableEq α] (ltB : α → α → Bool)
    (b : α) (t : List α) : lexLtB ltB [] (b :: t) = true := rfl

theorem lexLtB_irrefl {α : Type} [DecidableEq α] (ltB : α → α → Bool) :
    ∀ s, lexLtB ltB s s = false
  | [] => rfl
  | a :: s => by rw [lexLtB, if_pos rfl]; exact lexLtB_irrefl ltB s

theorem lexLtB_eq_of_not_lt {α : Type} [DecidableEq α] {ltB : α → α → Bool}
    (htot : ∀ a b, ltB a b = false → ltB b a = false → a = b) :
    ∀ s t, lexLtB ltB s t = false → lexLtB ltB t s = false → s = t
  | [], [], _, _ => rfl
  | [], _ :: _, h1, _ => by rw [lexLtB] at h1; cases h1
  | _ :: _, [], _, h2 => by rw [lexLtB] at h2; cases h2
  | a :: s, b :: t, h1, h2 => by
      rw [lexLtB] at h1 h2
      by_cases hab : a = b
      · subst hab
        rw [if_pos rfl] at h1 h2
        rw [lexLtB_eq_of_not_lt htot s t h1 h2]
      · rw [if_neg hab] at h1
        rw [if_neg (fun h => hab h.symm)] at h2
        exact absurd (htot a b h1 h2) hab

theorem lexLtB_trans {α : Type} [DecidableEq α] {ltB : α → α → Bool}
    (hirr : ∀ a, ltB a a = false)
    (htr : ∀ a b c, ltB a b = true → ltB b c = true → ltB a c = true) :
    ∀ s t u, lexLtB ltB s t = true → lexLtB ltB t u = true →
      lexLtB ltB s u = true
  | _, _, [], _, h2 => by rw [lexLtB] at h2; cases h2
  | _, [], _ :: _, h1, _ => by rw [lexLtB] at h1; cases h1
  | [], _ :: _, _ :: _, _, _ => rfl
  | a :: s, b :: t, c :: u, h1, h2 => by
      rw [lexLtB] at h1 h2 ⊢
      by_cases hab : a = b
      · subst hab
        rw [if_pos rfl] at h1
        by_cases hbc : a = c
        · subst hbc
          rw [if_pos rfl] at h2 ⊢
          exact lexLtB_trans hirr htr s t u h1 h2
        · rw [if_neg hbc] at h2 ⊢
          exact h2
      · rw [if_neg hab] at h1
        by_cases hbc : b = c
        · subst hbc
          rw [if_neg hab]
          exact h1
        · rw [if_neg hbc] at h2
          have hac : a ≠ c := by
            rintro rfl
            exact absurd (htr a b a h1 h2) (by rw [hirr a]; simp)
          rw [if_neg hac]
          exact htr a b c h1 h2

theorem lexLtB_of_prefix {α : Type} [DecidableEq α] (ltB : α → α → Bool) :
    ∀ s t : List α, s <+: t → s ≠ t → lexLtB ltB s t = true
  | [], t, _, hne => by
      rcases t with _ | ⟨b, t⟩
      · exact absurd rfl hne
      · rfl
  | a :: s, t, hpre, hne => by
      rcases t with _ | ⟨b, t⟩
      · exact absurd (List.prefix_nil.mp hpre) (by simp)
      · have hab : a = b := (List.cons_prefix_cons.mp hpre).1
        subst hab
        rw [lexLtB, if_pos rfl]
        exact lexLtB_of_prefix ltB s t (List.cons_prefix_cons.mp hpre).2
          (fun h => hne (by rw [h]))

/-- Code-point comparison of single characters (Python compares characters
by code point). -/
def charLtB (a b : Char) : Bool := decide (a.toNat < b.toNat)

/-- Code-point lexicographic comparison of strings: the comparison Python
applies to `str` values. -/
def strLtB (a b : String) : Bool := lexLtB charLtB a.data b.data

theorem charLtB_irrefl (a : Char) : charLtB a a = false := by
  simp [charLtB]

theorem charLtB_trans (a b c : Char) (h1 : charLtB a b = true)
    (h2 : charLtB b c = true) : charLtB a c = true := by
  simp only [charLtB, decide_eq_true_eq] at *
  omega

theorem charLtB_total (a b : Char) (h1 : charLtB a b = false)
    (h2 : charLtB b a = false) : a = b := by
  simp only [charLtB, decide_eq_false_iff_not, Nat.not_lt] at h1 h2
  exact Char.ext (UInt32.ext (by
    have : a.toNat = b.toNat := le_antisymm h2 h1
    simpa [Char.toNat, UInt32.toNat] using this))

theorem strData_inj (a b : String) (h : a.data = b.data) : a = b := by
  cases a; cases b; cases h; rfl

theorem strLtB_irrefl (a : String) : strLtB a a = false :=
  lexLtB_irrefl charLtB a.data

theorem strLtB_trans (a b c : String) (h1 : strLtB a b = true)
    (h2 : strLtB b c = true) : strLtB a c = true :=
  lexLtB_trans charLtB_irrefl charLtB_trans a.data b.data c.data h1 h2

theorem strLtB_total (a b : String) (h1 : strLtB a b = false)
    (h2 : strLtB b a = false) : a = b :=
  strData_inj a b (lexLtB_eq_of_not_lt charLtB_total a.data b.data h1 h2)

/-- Strict comparison of paths, segment-wise. -/
def pathLtB : Path → Path → Bool := lexLtB strLtB

theorem pathLtB_irrefl (p : Path) : pathLtB p p = false :=
  lexLtB_irrefl strLtB p

theorem pathLtB_trans (p q r : Path) (h1 : pathLtB p q = true)
    (h2 : pathLtB q r = true) : pathLtB p r = true :=
  lexLtB_trans strLtB_irrefl strLtB_trans p q r h1 h2

theorem pathLtB_total (p q : Path) (h1 : pathLtB p q = false)
    (h2 : pathLtB q p = false) : p = q :=
  lexLtB_eq_of_not_lt strLtB_total p q h1 h2

theorem pathLtB_of_prefix (p q : Path) (hpre : p <+: q) (hne : p ≠ q) :
    pathLtB p q = true :=
  lexLtB_of_prefix strLtB p q hpre hne

theorem pathLtB_asymm (p q : Path) (h : pathLtB p q = true) :
    pathLtB q p = false := by
  by_cases h2 : pathLtB q p = true
  · have := pathLtB_trans p q p h h2
    rw [pathLtB_irrefl] at this
    cases this
  · simpa using h2

/-- Reflexive closure of the strict path comparison. -/
def pathLeB (p q : Path) : Bool := pathLtB p q || decide (p = q)

/-- The sort order used for processing paths. -/
def pathLe (p q : Path) : Prop := pathLeB p q = true

instance pathLe.decRel : DecidableRel pathLe := fun p q =>
  inferInstanceAs (Decidable (_ = true))

instance pathLe.isTotal : IsTotal Path pathLe where
  total p q := by
    by_cases h1 : pathLtB p q = true
    · exact Or.inl (by simp [pathLe, pathLeB, h1])
    · by_cases h2 : pathLtB q p = true
      · exact Or.inr (by simp [pathLe, pathLeB, h2])
      · have := pathLtB_total p q (by simpa using h1) (by simpa using h2)
        exact Or.inl (by simp [pathLe, pathLeB, this])

instance pathLe.isTrans : IsTrans Path pathLe where
  trans p q r h1 h2 := by
    simp only [pathLe, pathLeB, Bool.or_eq_true, decide_eq_true_eq] at *
    rcases h1 with h1 | rfl
    · rcases h2 with h2 | rfl
      · exact Or.inl (pathLtB_trans p q r h1 h2)
      · exact Or.inl h1
    · exact h2

instance pathLe.isAntisymm : IsAntisymm Path pathLe where
  antisymm p q h1 h2 := by
    simp only [pathLe, pathLeB, Bool.or_eq_true, decide_eq_true_eq] at h1 h2
    rcases h1 with h1 | rfl
    · rcases h2 with h2 | rfl
      · have := pathLtB_asymm p q h1
        rw [h2] at this
        cases this
      · rfl
    · rfl

/-- Insert a path into an already sorted list. -/
def insertSorted (p : Path) : List Path → List Path
  | [] => [p]
  | q :: l => if pathLeB p q then p :: q :: l else q :: insertSorted p l

/-- Insertion sort of a list of paths, ascending. -/
def sortPaths (l : List Path) : List Path := l.foldr insertSorted []

theorem insertSorted_perm (p : Path) (l : List Path) :
    (insertSorted p l).Perm (p :: l) := by
  induction l with
  | nil => exact List.Perm.refl _
  | cons q l ih =>
    rw [insertSorted]
    by_cases h : pathLeB p q
    · rw [if_pos h]
    · rw [if_neg h]
      exact (ih.cons q).trans (List.Perm.swap p q l)

theorem sortPaths_perm (l : List Path) : (sortPaths l).Perm l := by
  induction l with
  | nil => exact List.Perm.refl _
  | cons p l ih =>
    rw [sortPaths, List.foldr_cons]
    exact (insertSorted_perm _ _).trans (ih.cons p)

theorem mem_insertSorted (p q : Path) (l : List Path) :
    q ∈ insertSorted p l ↔ q = p ∨ q ∈ l := by
  rw [(insertSorted_perm p l).mem_iff, List.mem_cons]

theorem insertSorted_sorted (p : Path) (l : List Path)
    (h : l.Pairwise pathLe) : (insertSorted p l).Pairwise pathLe := by
  induction l with
  | nil => simp [insertSorted, List.pairwise_cons]
  | cons q l ih =>
    rw [insertSorted]
    by_cases hle : pathLeB p q
    · rw [if_pos hle]
      rw [List.pairwise_cons]
      refine ⟨?_, h⟩
      intro b hb
      rcases List.mem_cons.mp hb with rfl | hb
      · exact hle
      · exact pathLe.isTrans.trans p q b hle ((List.pairwise_cons.mp h).1 b hb)
    · rw [if_neg hle]
      rw [List.pairwise_cons]
      refine ⟨?_, ih (List.pairwise_cons.mp h).2⟩
      intro b hb
      rcases (mem_insertSorted p b l).mp hb with rfl | hb
      · rcases (IsTotal.total (r := pathLe) b q) with hx | hx
        · exact absurd hx hle
        · exact hx
      · exact (List.pairwise_cons.mp h).1 b hb

theorem sortPaths_sorted (l : List Path) : (sortPaths l).Pairwise pathLe := by
  induction l with
  | nil => exact List.Pairwise.nil
  | cons p l ih =>
    rw [sortPaths, List.foldr_cons]
    exact insertSorted_sorted p (sortPaths l) ih

theorem sortPaths_eq_of_perm (l1 l2 : List Path) (h : l1.Perm l2) :
    sortPaths l1 = sortPaths l2 :=
  List.eq_of_perm_of_sorted
    (((sortPaths_perm l1).trans h).trans (sortPaths_perm l2).symm)
    (sortPaths_sorted l1) (sortPaths_sorted l2)

/-- Sort the paths of a multiset, ascending (kernel-computable counterpart
of `Multiset.sort`). -/
def msortPaths (s : Multiset Path) : List Path :=
  Quot.liftOn s sortPaths sortPaths_eq_of_perm

/-- The ascending list of the paths of a set of file objects
(`paths = [file.path for file in files]` followed by `paths.sort()`;
duplicate path strings cannot arise from one catalog, and repeating a copy
or removal of the same path is idempotent, so working with the
deduplicated set of paths is exact). -/
def sortedPathList (files : Finset Entry) : List Path :=
  msortPaths (files.image Entry.path).val

theorem mem_msortPaths (s : Multiset Path) (p : Path) :
    p ∈ msortPaths s ↔ p ∈ s := by
  induction s using Quot.inductionOn with
  | h l => exact (sortPaths_perm l).mem_iff

theorem nodup_msortPaths (s : Multiset Path) (h : s.Nodup) :
    (msortPaths s).Nodup := by
  induction s using Quot.inductionOn with
  | h l => exact (sortPaths_perm l).nodup_iff.mpr (Multiset.coe_nodup.mp h)

theorem mem_sortedPathList (files : Finset Entry) (p : Path) :
    p ∈ sortedPathList files ↔ ∃ e ∈ files, e.path = p := by
  unfold sortedPathList
  rw [mem_msortPaths, Finset.mem_val, Finset.mem_image]

theorem sortedPathList_nodup (files : Finset Entry) :
    (sortedPathList files).Nodup :=
  nodup_msortPaths _ (files.image Entry.path).nodup

theorem sortedPathList_sorted (files : Finset Entry) :
    (sortedPathList files).Pairwise pathLe := by
  unfold sortedPathList msortPaths
  induction (files.image Entry.path).val using Quot.inductionOn with
  | h l => exact sortPaths_sorted l

/-! Path validity.  `BaseFs.is_path_allowed` of `bcup/filesystem.py` splits
a path at the separator and checks every name for the forbidden characters
of the target filesystem; in the embedding a path is already its list of
names. -/

/-- `BaseFs.is_name_allowed`: no forbidden character occurs in the name. -/
def is_name_allowed (forbidden : List Char) (name : String) : Bool :=
  !(forbidden.any (fun c => name.data.contains c))

/-- `BaseFs.is_path_allowed`: every name of the path is allowed. -/
def is_path_allowed (forbidden : List Char) (p : Path) : Bool :=
  p.all (is_name_allowed forbidden)

/-! The copy and delete helpers of `bcup/diff.py`. -/

/-- `utils.ensure_dir(path)`: if the path does not exist, `os.makedirs`
creates it and its missing ancestors as directories.  (When an existing
non-directory occupies one of the prefixes, `os.makedirs` raises; the
hypotheses of the theorems below exclude that situation.) -/
def ensure_dir (p : Path) (fs : FS) : FS :=
  if (fsGet fs p).isSome then fs
  else p.inits.foldl
    (fun acc q =>
      if q = [] then acc
      else if (fsGet acc q).isSome then acc
      else fsSet acc q .dir) fs

/-- The body of the copy loop of `copy_files` for one relative path: ensure
the parent directory of the destination, then copy a file or symlink, or
create the directory when it does not yet exist; a missing source is only
warned about.  (`shutil.copy2` onto an existing directory and `os.mkdir`
over an existing file raise; the hypotheses of the theorems below exclude
those situations.) -/
def copy_one (src : FS) (dst : FS) (p : Path) : FS :=
  match fsGet src p with
  | some .dir =>
      if (fsGet (ensure_dir p.dropLast dst) p).isSome then
        ensure_dir p.dropLast dst
      else fsSet (ensure_dir p.dropLast dst) p .dir
  | some n => fsSet (ensure_dir p.dropLast dst) p n
  | none => ensure_dir p.dropLast dst

/-- `copy_files(files, src, dst, dst_fs)` of `bcup/diff.py`: the relative
paths of the file objects are sorted ascending and processed in order.
Before each entry is processed, the code checks
`dst_fs.is_path_allowed(dst)` — the destination root directory, not the
entry's destination path `dst_path` — and skips the entry if the root is
disallowed.  `src` and `dst` are the trees under the source and destination
roots; the destination root path (which the validity check reads) is
passed separately. -/
def copy_files (files : Finset Entry) (src dst : FS)
    (dstFs : Option (List Char)) (dstRoot : Path) : FS :=
  let ps := sortedPathList files
  ps.foldl
    (fun acc p =>
      match dstFs with
      | some forbidden =>
          if is_path_allowed forbidden dstRoot then copy_one src acc p else acc
      | none => copy_one src acc p) dst

/-- The body of the removal loop of `remove_files` for one absolute path:
a symlink or regular file is unlinked, a directory is removed only when
`os.listdir` finds it empty, a missing path is only warned about. -/
def remove_one (fs : FS) (p : Path) : FS :=
  match fsGet fs p with
  | none => fs
  | some (.file _ _) => fsDel fs p
  | some (.symlink _) => fsDel fs p
  | some .dir => if fsHasBelow fs p then fs else fsDel fs p

/-- `remove_files(files, root)` of `bcup/diff.py`: the paths are sorted in
reverse order and processed in that order, so that the entries below a
directory are removed before the directory itself. -/
def remove_files (files : Finset Entry) (fs : FS) : FS :=
  ((sortedPathList files).reverse).foldl
    remove_one fs

/-! Pointwise characterization of the copy and removal loops. -/

theorem prefix_dropLast_iff (q p : Path) (hq : q ≠ []) :
    q <+: p.dropLast ↔ (q <+: p ∧ q ≠ p) := by
  constructor
  · intro h
    refine ⟨h.trans (List.dropLast_prefix p), ?_⟩
    intro hqp
    subst hqp
    have hlen := h.length_le
    rw [List.length_dropLast] at hlen
    have : 0 < q.length := List.length_pos.mpr hq
    omega
  · rintro ⟨hpre, hne⟩
    have hlt : q.length < p.length := by
      rcases lt_or_eq_of_le hpre.length_le with h | h
      · exact h
      · exfalso
        rw [List.prefix_iff_eq_take] at hpre
        rw [hpre, h, List.take_length] at hne
        exact hne rfl
    rw [List.prefix_iff_eq_take] at hpre ⊢
    rw [List.dropLast_eq_take, List.take_take]
    have hmin : q.length ⊓ (p.length - 1) = q.length := by
      rw [inf_eq_min]
      omega
    rw [hmin]
    exact hpre

theorem fsGet_fold_ensure (l : List Path) (fs : FS) (q : Path) :
    fsGet (l.foldl
      (fun acc q' =>
        if q' = [] then acc
        else if (fsGet acc q').isSome then acc
        else fsSet acc q' .dir) fs) q =
      if q ∈ l ∧ q ≠ [] ∧ fsGet fs q = none then some .dir else fsGet fs q := by
  induction l generalizing fs with
  | nil => simp
  | cons a l ih =>
    rw [List.foldl_cons]
    by_cases ha : a = []
    · rw [if_pos ha, ih]
      subst ha
      by_cases hq : q ∈ l ∧ q ≠ [] ∧ fsGet fs q = none
      · rw [if_pos hq, if_pos ⟨List.mem_cons_of_mem _ hq.1, hq.2⟩]
      · rw [if_neg hq]
        by_cases hq2 : q ∈ [] :: l ∧ q ≠ [] ∧ fsGet fs q = none
        · rcases List.mem_cons.mp hq2.1 with h | h
          · exact absurd h hq2.2.1
          · exact absurd ⟨h, hq2.2⟩ hq
        · rw [if_neg hq2]
    · rw [if_neg ha]
      by_cases hs : (fsGet fs a).isSome
      · rw [if_pos hs, ih]
        by_cases hq : q ∈ l ∧ q ≠ [] ∧ fsGet fs q = none
        · rw [if_pos hq, if_pos ⟨List.mem_cons_of_mem _ hq.1, hq.2⟩]
        · rw [if_neg hq]
          by_cases hq2 : q ∈ a :: l ∧ q ≠ [] ∧ fsGet fs q = none
          · rcases List.mem_cons.mp hq2.1 with h | h
            · subst h
              rw [hq2.2.2] at hs
              simp at hs
            · exact absurd ⟨h, hq2.2⟩ hq
          · rw [if_neg hq2]
      · rw [if_neg hs, ih]
        by_cases hqa : q = a
        · subst hqa
          have hnone : fsGet fs q = none := by
            rcases h : fsGet fs q with _ | n
            · rfl
            · rw [h] at hs; simp at hs
          rw [fsGet_set_self]
          rw [if_neg (fun hx => by cases hx.2.2)]
          rw [if_pos ⟨List.mem_cons_self _ _, ha, hnone⟩]
        · have hget : fsGet (fsSet fs a Node.dir) q = fsGet fs q :=
            fsGet_set_ne fs a q .dir (fun h => hqa h.symm)
          rw [hget]
          by_cases hq : q ∈ l ∧ q ≠ [] ∧ fsGet fs q = none
          · rw [if_pos hq, if_pos ⟨List.mem_cons_of_mem _ hq.1, hq.2⟩]
          · rw [if_neg hq]
            by_cases hq2 : q ∈ a :: l ∧ q ≠ [] ∧ fsGet fs q = none
            · rcases List.mem_cons.mp hq2.1 with h | h
              · exact absurd h hqa
              · exact absurd ⟨h, hq2.2⟩ hq
            · rw [if_neg hq2]

theorem fsGet_ensure_dir (r : Path) (fs : FS) (q : Path) :
    fsGet (ensure_dir r fs) q =
      if (fsGet fs r).isSome then fsGet fs q
      else if q <+: r ∧ q ≠ [] ∧ fsGet fs q = none then some .dir
      else fsGet fs q := by
  unfold ensure_dir
  by_cases hr : (fsGet fs r).isSome
  · rw [if_pos hr, if_pos hr]
  · rw [if_neg hr, if_neg hr, fsGet_fold_ensure]
    by_cases hq : q ∈ r.inits ∧ q ≠ [] ∧ fsGet fs q = none
    · rw [if_pos hq, if_pos ⟨(List.mem_inits q r).mp hq.1, hq.2⟩]
    · rw [if_neg hq]
      by_cases hq2 : q <+: r ∧ q ≠ [] ∧ fsGet fs q = none
      · exact absurd ⟨(List.mem_inits q r).mpr hq2.1, hq2.2⟩ hq
      · rw [if_neg hq2]

theorem fsGet_ensure_dir_self_path (r : Path) (fs : FS) (q : Path)
    (h : ¬ (q <+: r ∧ q ≠ [])) : fsGet (ensure_dir r fs) q = fsGet fs q := by
  rw [fsGet_ensure_dir]
  by_cases hr : (fsGet fs r).isSome
  · rw [if_pos hr]
  · rw [if_neg hr, if_neg (fun hx => h ⟨hx.1, hx.2.1⟩)]

theorem fsGet_ensure_dir_self (r : Path) (fs : FS) :
    fsGet (ensure_dir r (fs : FS)) r = fsGet fs r ∨
      fsGet (ensure_dir r fs) r = some Node.dir := by
  rw [fsGet_ensure_dir]
  by_cases hr : (fsGet fs r).isSome
  · rw [if_pos hr]; exact Or.inl rfl
  · rw [if_neg hr]
    by_cases hc : r <+: r ∧ r ≠ [] ∧ fsGet fs r = none
    · rw [if_pos hc]; exact Or.inr rfl
    · rw [if_neg hc]; exact Or.inl rfl

theorem fsGet_ensure_dir_no_self (r : Path) (fs : FS) (q : Path)
    (h : ¬ (q <+: r ∧ q ≠ [])) : fsGet (ensure_dir r fs) q = fsGet fs q :=
  fsGet_ensure_dir_self_path r fs q h

theorem ensure_dropLast_get_self (p : Path) (dst : FS) :
    fsGet (ensure_dir p.dropLast dst) p = fsGet dst p := by
  apply fsGet_ensure_dir_self_path
  rintro ⟨hpre, hne⟩
  rw [prefix_dropLast_iff _ _ hne] at hpre
  exact hpre.2 rfl

theorem fsGet_copy_one_none (src dst : FS) (p : Path)
    (h : fsGet src p = none) :
    fsGet (copy_one src dst p) p = fsGet dst p := by
  unfold copy_one
  rw [h]
  exact ensure_dropLast_get_self p dst

theorem fsGet_copy_one_file (src dst : FS) (p : Path) (c : List Nat) (m : Nat)
    (h : fsGet src p = some (.file c m)) :
    fsGet (copy_one src dst p) p = some (.file c m) := by
  unfold copy_one
  rw [h]
  exact fsGet_set_self _ _ _

theorem fsGet_copy_one_symlink (src dst : FS) (p : Path) (t : String)
    (h : fsGet src p = some (.symlink t)) :
    fsGet (copy_one src dst p) p = some (.symlink t) := by
  unfold copy_one
  rw [h]
  exact fsGet_set_self _ _ _

theorem fsGet_copy_one_dir (src dst : FS) (p : Path)
    (h : fsGet src p = some .dir) :
    fsGet (copy_one src dst p) p =
      if (fsGet dst p).isSome then fsGet dst p else some Node.dir := by
  unfold copy_one
  rw [h]
  rw [ensure_dropLast_get_self p dst]
  by_cases hs : (fsGet dst p).isSome
  · rw [if_pos hs, if_pos hs]
    exact ensure_dropLast_get_self p dst
  · rw [if_neg hs, if_neg hs]
    exact fsGet_set_self _ _ _

theorem fsGet_copy_one_other (src dst : FS) (p q : Path) (hne : q ≠ p) :
    fsGet (copy_one src dst p) q = fsGet (ensure_dir p.dropLast dst) q := by
  unfold copy_one
  rcases h : fsGet src p with _ | n
  · rfl
  · cases n with
    | file c m => exact fsGet_set_ne _ _ _ _ (fun h => hne h.symm)
    | symlink t => exact fsGet_set_ne _ _ _ _ (fun h => hne h.symm)
    | dir =>
      by_cases hs : (fsGet (ensure_dir p.dropLast dst) p).isSome
      · rw [if_pos hs]
      · rw [if_neg hs]
        exact fsGet_set_ne _ _ _ _ (fun h => hne h.symm)

theorem fsGet_none_not_mem (fs : FS) (p : Path) (h : fsGet fs p = none)
    (n : Node) : (p, n) ∉ fs := by
  intro hmem
  induction fs with
  | nil => simp at hmem
  | cons pr fs ih =>
    rcases pr with ⟨r, m⟩
    rw [fsGet_cons] at h
    by_cases hr : r = p
    · rw [if_pos hr] at h; cases h
    · rw [if_neg hr] at h
      rcases List.mem_cons.mp hmem with he | htl
      · rw [Prod.mk.injEq] at he
        exact hr he.1.symm
      · exact ih h htl

theorem fsHasBelow_false_iff (fs : FS) (p : Path) :
    fsHasBelow fs p = false ↔ ∀ pr ∈ fs, ¬ (p <+: pr.1 ∧ pr.1 ≠ p) := by
  unfold fsHasBelow
  rw [← Bool.not_eq_true, List.any_eq_true]
  constructor
  · intro h pr hpr hc
    exact h ⟨pr, hpr, by
      rw [Bool.and_eq_true, List.isPrefixOf_iff_prefix]
      exact ⟨hc.1, by simpa using hc.2⟩⟩
  · rintro h ⟨pr, hpr, hb⟩
    rw [Bool.and_eq_true, List.isPrefixOf_iff_prefix] at hb
    exact h pr hpr ⟨hb.1, by simpa using hb.2⟩

/-- A tree is directory-closed when every nonempty strict or full prefix of
a stored path is itself stored (as the real filesystem guarantees: a path
exists only inside existing parent directories). -/
def dirClosed (fs : FS) : Prop :=
  ∀ p q : Path, (fsGet fs p).isSome = true → q <+: p → q ≠ [] →
    (fsGet fs q).isSome = true

/-- Bounded, decidable form of `dirClosed` for concrete trees. -/
def dirClosedB (fs : FS) : Bool :=
  fs.all (fun pr =>
    (pr.1.inits.filter (fun q => !decide (q = []))).all
      (fun q => (fsGet fs q).isSome))

theorem dirClosed_of_b (fs : FS) (h : dirClosedB fs = true) : dirClosed fs := by
  intro p q hp hpre hne
  rcases hg : fsGet fs p with _ | n
  · rw [hg] at hp; cases hp
  · have hmem := fsGet_mem fs p n hg
    rw [dirClosedB, List.all_eq_true] at h
    have := h (p, n) hmem
    rw [List.all_eq_true] at this
    apply this
    rw [List.mem_filter]
    exact ⟨(List.mem_inits q p).mpr hpre, by simpa using hne⟩

theorem fsGet_ensure_dir_closed (r : Path) (fs : FS) (q : Path)
    (hcl : dirClosed fs) :
    fsGet (ensure_dir r fs) q =
      if q <+: r ∧ q ≠ [] ∧ fsGet fs q = none then some .dir
      else fsGet fs q := by
  rw [fsGet_ensure_dir]
  by_cases hr : (fsGet fs r).isSome
  · rw [if_pos hr]
    by_cases hc : q <+: r ∧ q ≠ [] ∧ fsGet fs q = none
    · exfalso
      have := hcl r q hr hc.1 hc.2.1
      rw [hc.2.2] at this
      cases this
    · rw [if_neg hc]
  · rw [if_neg hr]

theorem ensure_isSome_mono (r : Path) (fs : FS) (q : Path)
    (h : (fsGet fs q).isSome = true) :
    (fsGet (ensure_dir r fs) q).isSome = true := by
  rw [fsGet_ensure_dir]
  by_cases hr : (fsGet fs r).isSome
  · rw [if_pos hr]; exact h
  · rw [if_neg hr]
    by_cases hc : q <+: r ∧ q ≠ [] ∧ fsGet fs q = none
    · rw [if_pos hc]; rfl
    · rw [if_neg hc]; exact h

theorem ensure_getD_other (r : Path) (fs : FS) (q : Path) :
    (fsGet (ensure_dir r fs) q).getD Node.dir = (fsGet fs q).getD Node.dir := by
  rw [fsGet_ensure_dir]
  by_cases hr : (fsGet fs r).isSome
  · rw [if_pos hr]
  · rw [if_neg hr]
    by_cases hc : q <+: r ∧ q ≠ [] ∧ fsGet fs q = none
    · rw [if_pos hc, hc.2.2]; rfl
    · rw [if_neg hc]

theorem copy_one_isSome_mono (src dst : FS) (p q : Path)
    (h : (fsGet dst q).isSome = true) :
    (fsGet (copy_one src dst p) q).isSome = true := by
  by_cases hq : q = p
  · subst hq
    rcases hs : fsGet src q with _ | n
    · rw [fsGet_copy_one_none src dst q hs]; exact h
    · cases n with
      | file c m => rw [fsGet_copy_one_file src dst q c m hs]; rfl
      | symlink t => rw [fsGet_copy_one_symlink src dst q t hs]; rfl
      | dir =>
        rw [fsGet_copy_one_dir src dst q hs, if_pos h]
        exact h
  · rw [fsGet_copy_one_other src dst p q hq]
    exact ensure_isSome_mono _ _ _ h

theorem copy_one_getD_other (src dst : FS) (p q : Path) (hne : q ≠ p) :
    (fsGet (copy_one src dst p) q).getD Node.dir =
      (fsGet dst q).getD Node.dir := by
  rw [fsGet_copy_one_other src dst p q hne]
  exact ensure_getD_other _ _ _

theorem dirClosed_ensure (r : Path) (fs : FS) (hcl : dirClosed fs) :
    dirClosed (ensure_dir r fs) := by
  intro p q hp hpre hne
  rw [fsGet_ensure_dir_closed r fs p hcl] at hp
  rw [fsGet_ensure_dir_closed r fs q hcl]
  by_cases hcp : p <+: r ∧ p ≠ [] ∧ fsGet fs p = none
  · by_cases hcq : q <+: r ∧ q ≠ [] ∧ fsGet fs q = none
    · rw [if_pos hcq]; rfl
    · rw [if_neg hcq]
      rcases hg : fsGet fs q with _ | n
      · exact absurd ⟨hpre.trans hcp.1, hne, hg⟩ hcq
      · rfl
  · rw [if_neg hcp] at hp
    by_cases hcq : q <+: r ∧ q ≠ [] ∧ fsGet fs q = none
    · rw [if_pos hcq]; rfl
    · rw [if_neg hcq]
      exact hcl p q hp hpre hne

theorem dirClosed_copy_one (src dst : FS) (p : Path) (hcl : dirClosed dst) :
    dirClosed (copy_one src dst p) := by
  intro p' q hp' hpre hne
  by_cases hq : q = p'
  · subst hq; exact hp'
  · have hstrict : q <+: p' ∧ q ≠ p' := ⟨hpre, hq⟩
    by_cases hpp : p' = p
    · subst hpp
      have hqd : q <+: p'.dropLast := by
        rw [prefix_dropLast_iff _ _ hne]
        exact hstrict
      have hqp : q ≠ p' := hstrict.2
      rw [fsGet_copy_one_other src dst p' q hqp]
      rw [fsGet_ensure_dir]
      by_cases hr : (fsGet dst p'.dropLast).isSome
      · rw [if_pos hr]
        by_cases hqq : q = p'.dropLast
        · rw [hqq]; exact hr
        · exact hcl p'.dropLast q hr hqd hne
      · rw [if_neg hr]
        by_cases hc : q <+: p'.dropLast ∧ q ≠ [] ∧ fsGet dst q = none
        · rw [if_pos hc]; rfl
        · rw [if_neg hc]
          rcases hg : fsGet dst q with _ | n
          · exact absurd ⟨hqd, hne, hg⟩ hc
          · rfl
    · rw [fsGet_copy_one_other src dst p p' hpp] at hp'
      rw [fsGet_ensure_dir] at hp'
      by_cases hr : (fsGet dst p.dropLast).isSome
      · rw [if_pos hr] at hp'
        have := hcl p' q hp' hpre hne
        exact copy_one_isSome_mono src dst p q this
      · rw [if_neg hr] at hp'
        by_cases hc : p' <+: p.dropLast ∧ p' ≠ [] ∧ fsGet dst p' = none
        · rw [if_pos hc] at hp'
          have hqd : q <+: p.dropLast := hpre.trans hc.1
          have hqp : q ≠ p := by
            intro hx
            subst hx
            have := hqd.length_le
            rw [List.length_dropLast] at this
            have h0 : 0 < q.length := List.length_pos.mpr hne
            omega
          rw [fsGet_copy_one_other src dst p q hqp]
          rw [fsGet_ensure_dir, if_neg hr]
          by_cases hcq : q <+: p.dropLast ∧ q ≠ [] ∧ fsGet dst q = none
          · rw [if_pos hcq]; rfl
          · rw [if_neg hcq]
            rcases hg : fsGet dst q with _ | n
            · exact absurd ⟨hqd, hne, hg⟩ hcq
            · rfl
        · rw [if_neg hc] at hp'
          have := hcl p' q hp' hpre hne
          exact copy_one_isSome_mono src dst p q this

/-- The copy loop over an explicit list of paths (the body of `copy_files`
once the constant root check has passed). -/
def copyLoop (src : FS) (ps : List Path) (dst : FS) : FS :=
  ps.foldl (copy_one src) dst

theorem copyLoop_cons (src : FS) (p : Path) (ps : List Path) (dst : FS) :
    copyLoop src (p :: ps) dst = copyLoop src ps (copy_one src dst p) := rfl

theorem foldl_id {α β : Type} (l : List α) (b : β) :
    l.foldl (fun acc _ => acc) b = b := by
  induction l with
  | nil => rfl
  | cons a l ih => rw [List.foldl_cons]; exact ih

theorem copy_files_skip (files : Finset Entry) (src dst : FS)
    (fb : List Char) (dstRoot : Path)
    (h : is_path_allowed fb dstRoot = false) :
    copy_files files src dst (some fb) dstRoot = dst := by
  show (sortedPathList files).foldl
    (fun acc p =>
      if is_path_allowed fb dstRoot = true then copy_one src acc p else acc)
    dst = dst
  simp only [h, Bool.false_eq_true, if_false]
  exact foldl_id _ _

theorem copy_files_allowed (files : Finset Entry) (src dst : FS)
    (fb : List Char) (dstRoot : Path)
    (h : is_path_allowed fb dstRoot = true) :
    copy_files files src dst (some fb) dstRoot =
      copyLoop src (sortedPathList files) dst := by
  show (sortedPathList files).foldl
    (fun acc p =>
      if is_path_allowed fb dstRoot = true then copy_one src acc p else acc)
    dst = _
  simp only [h, if_true]
  rfl

theorem dirClosed_copyLoop (src : FS) (ps : List Path) (dst : FS)
    (hcl : dirClosed dst) : dirClosed (copyLoop src ps dst) := by
  induction ps generalizing dst with
  | nil => exact hcl
  | cons p ps ih =>
    rw [copyLoop, List.foldl_cons]
    exact ih (copy_one src dst p) (dirClosed_copy_one src dst p hcl)

theorem copyLoop_isSome_mono (src : FS) (ps : List Path) (dst : FS) (q : Path)
    (h : (fsGet dst q).isSome = true) :
    (fsGet (copyLoop src ps dst) q).isSome = true := by
  induction ps generalizing dst with
  | nil => exact h
  | cons p ps ih =>
    rw [copyLoop, List.foldl_cons]
    exact ih (copy_one src dst p) (copy_one_isSome_mono src dst p q h)

theorem copyLoop_get_occupied (src : FS) (ps : List Path) (dst : FS)
    (q : Path) (hq : q ∉ ps) (h : (fsGet dst q).isSome = true) :
    fsGet (copyLoop src ps dst) q = fsGet dst q := by
  induction ps generalizing dst with
  | nil => rfl
  | cons p ps ih =>
    rw [copyLoop_cons]
    have hqp : q ≠ p := fun hx => hq (hx ▸ List.mem_cons_self _ _)
    have hstep : fsGet (copy_one src dst p) q = fsGet dst q := by
      rw [fsGet_copy_one_other src dst p q hqp]
      rw [fsGet_ensure_dir]
      by_cases hr : (fsGet dst p.dropLast).isSome
      · rw [if_pos hr]
      · rw [if_neg hr]
        rw [if_neg (fun hc => by rw [hc.2.2] at h; cases h)]
    rw [ih (copy_one src dst p) (fun hx => hq (List.mem_cons_of_mem _ hx))
      (by rw [hstep]; exact h), hstep]

theorem copyLoop_get_untouched (src : FS) (ps : List Path) (dst : FS)
    (q : Path) (hq : q ∉ ps)
    (hpre : ∀ p ∈ ps, ¬ (q ≠ [] ∧ q <+: p ∧ q ≠ p)) :
    fsGet (copyLoop src ps dst) q = fsGet dst q := by
  induction ps generalizing dst with
  | nil => rfl
  | cons p ps ih =>
    rw [copyLoop_cons]
    have hqp : q ≠ p := fun hx => hq (hx ▸ List.mem_cons_self _ _)
    have hstep : fsGet (copy_one src dst p) q = fsGet dst q := by
      rw [fsGet_copy_one_other src dst p q hqp]
      apply fsGet_ensure_dir_no_self
      rintro ⟨hp, hne⟩
      rw [prefix_dropLast_iff _ _ hne] at hp
      exact hpre p (List.mem_cons_self _ _) ⟨hne, hp.1, hp.2⟩
    rw [ih (copy_one src dst p)
      (fun hx => hq (List.mem_cons_of_mem _ hx))
      (fun p' hp' => hpre p' (List.mem_cons_of_mem _ hp')), hstep]

theorem copyLoop_get_nondir (src : FS) (ps : List Path) (dst : FS) (q : Path)
    (hnd : ps.Nodup) (hq : q ∈ ps) (n : Node) (hn : n ≠ .dir)
    (h : fsGet src q = some n) :
    fsGet (copyLoop src ps dst) q = some n := by
  induction ps generalizing dst with
  | nil => simp at hq
  | cons p ps ih =>
    rw [copyLoop_cons]
    rcases List.mem_cons.mp hq with rfl | hmem
    · have hrest : q ∉ ps := (List.nodup_cons.mp hnd).1
      have hself : fsGet (copy_one src dst q) q = some n := by
        cases n with
        | file c m => exact fsGet_copy_one_file src dst q c m h
        | symlink t => exact fsGet_copy_one_symlink src dst q t h
        | dir => exact absurd rfl hn
      rw [copyLoop_get_occupied src ps (copy_one src dst q) q hrest
        (by rw [hself]; rfl), hself]
    · exact ih (copy_one src dst p) (List.nodup_cons.mp hnd).2 hmem

theorem copyLoop_get_dir (src : FS) (ps : List Path) (dst : FS) (q : Path)
    (hnd : ps.Nodup) (hq : q ∈ ps) (h : fsGet src q = some .dir) :
    fsGet (copyLoop src ps dst) q = some ((fsGet dst q).getD Node.dir) := by
  induction ps generalizing dst with
  | nil => simp at hq
  | cons p ps ih =>
    rw [copyLoop_cons]
    rcases List.mem_cons.mp hq with rfl | hmem
    · have hrest : q ∉ ps := (List.nodup_cons.mp hnd).1
      have hself : fsGet (copy_one src dst q) q =
          some ((fsGet dst q).getD Node.dir) := by
        rw [fsGet_copy_one_dir src dst q h]
        rcases hg : fsGet dst q with _ | x
        · rw [if_neg (by simp)]; rfl
        · rw [if_pos (by simp)]; rfl
      rw [copyLoop_get_occupied src ps (copy_one src dst q) q hrest
        (by rw [hself]; rfl), hself]
    · by_cases hqp : q = p
      · subst hqp
        exact absurd hmem (List.nodup_cons.mp hnd).1
      · rw [ih (copy_one src dst p) (List.nodup_cons.mp hnd).2 hmem,
          copy_one_getD_other src dst p q hqp]

theorem copyLoop_get_ancestor (src : FS) (ps : List Path) (dst : FS)
    (q : Path) (hcl : dirClosed dst) (hq : q ∉ ps) (hne : q ≠ [])
    (hex : ∃ p ∈ ps, q <+: p ∧ q ≠ p) :
    fsGet (copyLoop src ps dst) q = some ((fsGet dst q).getD Node.dir) := by
  induction ps generalizing dst with
  | nil => simp at hex
  | cons p ps ih =>
    rw [copyLoop_cons]
    have hqp : q ≠ p := fun hx => hq (hx ▸ List.mem_cons_self _ _)
    have hrest : q ∉ ps := fun hx => hq (List.mem_cons_of_mem _ hx)
    by_cases hrel : q <+: p ∧ q ≠ p
    · have hqd : q <+: p.dropLast := by
        rw [prefix_dropLast_iff _ _ hne]; exact hrel
      have hstep : fsGet (copy_one src dst p) q =
          some ((fsGet dst q).getD Node.dir) := by
        rw [fsGet_copy_one_other src dst p q hqp, fsGet_ensure_dir]
        by_cases hr : (fsGet dst p.dropLast).isSome
        · rw [if_pos hr]
          by_cases hqq : q = p.dropLast
          · rcases hg : fsGet dst q with _ | x
            · exfalso; rw [hqq] at hg; rw [hg] at hr; cases hr
            · rfl
          · have := hcl p.dropLast q hr hqd hne
            rcases hg : fsGet dst q with _ | x
            · rw [hg] at this; cases this
            · rfl
        · rw [if_neg hr]
          by_cases hc : q <+: p.dropLast ∧ q ≠ [] ∧ fsGet dst q = none
          · rw [if_pos hc, hc.2.2]; rfl
          · rw [if_neg hc]
            rcases hg : fsGet dst q with _ | x
            · exact absurd ⟨hqd, hne, hg⟩ hc
            · rfl
      rw [copyLoop_get_occupied src ps (copy_one src dst p) q hrest
        (by rw [hstep]; rfl), hstep]
    · rcases hex with ⟨p', hp', hrel'⟩
      rcases List.mem_cons.mp hp' with rfl | hmem'
      · exact absurd hrel' hrel
      · have hstep : fsGet (copy_one src dst p) q = fsGet dst q := by
          rw [fsGet_copy_one_other src dst p q hqp]
          apply fsGet_ensure_dir_no_self
          rintro ⟨hpd, hne'⟩
          rw [prefix_dropLast_iff _ _ hne'] at hpd
          exact hrel hpd
        rw [ih (copy_one src dst p)
          (dirClosed_copy_one src dst p hcl) hrest ⟨p', hmem', hrel'⟩, hstep]

/-- The removal loop over an explicit list of paths (the body of
`remove_files`). -/
def removeLoop (ps : List Path) (fs : FS) : FS :=
  ps.foldl remove_one fs

theorem removeLoop_cons (p : Path) (ps : List Path) (fs : FS) :
    removeLoop (p :: ps) fs = removeLoop ps (remove_one fs p) := rfl

theorem remove_files_eq_loop (files : Finset Entry) (fs : FS) :
    remove_files files fs =
      removeLoop ((sortedPathList files).reverse) fs :=
  rfl

theorem remove_one_none (fs : FS) (p : Path) (h : fsGet fs p = none) :
    remove_one fs p = fs := by
  unfold remove_one; rw [h]

theorem remove_one_file (fs : FS) (p : Path) (c : List Nat) (m : Nat)
    (h : fsGet fs p = some (.file c m)) : remove_one fs p = fsDel fs p := by
  unfold remove_one; rw [h]

theorem remove_one_symlink (fs : FS) (p : Path) (t : String)
    (h : fsGet fs p = some (.symlink t)) : remove_one fs p = fsDel fs p := by
  unfold remove_one; rw [h]

theorem remove_one_dir (fs : FS) (p : Path) (h : fsGet fs p = some .dir) :
    remove_one fs p = if fsHasBelow fs p then fs else fsDel fs p := by
  unfold remove_one; rw [h]

theorem remove_one_get_other (fs : FS) (p q : Path) (hne : q ≠ p) :
    fsGet (remove_one fs p) q = fsGet fs q := by
  rcases hg : fsGet fs p with _ | n
  · rw [remove_one_none fs p hg]
  · cases n with
    | file c m =>
      rw [remove_one_file fs p c m hg]
      exact fsGet_del_ne fs p q (fun h => hne h.symm)
    | symlink t =>
      rw [remove_one_symlink fs p t hg]
      exact fsGet_del_ne fs p q (fun h => hne h.symm)
    | dir =>
      rw [remove_one_dir fs p hg]
      by_cases hb : fsHasBelow fs p
      · rw [if_pos hb]
      · rw [if_neg hb]
        exact fsGet_del_ne fs p q (fun h => hne h.symm)

theorem remove_one_mem_subset (fs : FS) (p : Path) (pr : Path × Node)
    (h : pr ∈ remove_one fs p) : pr ∈ fs := by
  rcases hg : fsGet fs p with _ | n
  · rw [remove_one_none fs p hg] at h; exact h
  · cases n with
    | file c m =>
      rw [remove_one_file fs p c m hg] at h
      exact (List.mem_filter.mp h).1
    | symlink t =>
      rw [remove_one_symlink fs p t hg] at h
      exact (List.mem_filter.mp h).1
    | dir =>
      rw [remove_one_dir fs p hg] at h
      by_cases hb : fsHasBelow fs p
      · rw [if_pos hb] at h; exact h
      · rw [if_neg hb] at h
        exact (List.mem_filter.mp h).1

theorem removeLoop_get_not_mem (ps : List Path) (fs : FS) (q : Path)
    (hq : q ∉ ps) : fsGet (removeLoop ps fs) q = fsGet fs q := by
  induction ps generalizing fs with
  | nil => rfl
  | cons p ps ih =>
    rw [removeLoop_cons]
    have hqp : q ≠ p := fun hx => hq (hx ▸ List.mem_cons_self _ _)
    rw [ih (remove_one fs p) (fun hx => hq (List.mem_cons_of_mem _ hx)),
      remove_one_get_other fs p q hqp]

theorem removeLoop_get_mem (ps : List Path) (fs : FS) (hnd : ps.Nodup)
    (hpair : ps.Pairwise (fun a b => ¬ (a <+: b ∧ a ≠ b)))
    (hclose : ∀ p ∈ ps, fsGet fs p = some .dir →
      ∀ pr ∈ fs, p <+: pr.1 → pr.1 ≠ p → pr.1 ∈ ps)
    (q : Path) (hq : q ∈ ps) : fsGet (removeLoop ps fs) q = none := by
  induction ps generalizing fs with
  | nil => simp at hq
  | cons p ps ih =>
    rw [removeLoop_cons]
    have hstep : fsGet (remove_one fs p) p = none := by
      rcases hg : fsGet fs p with _ | n
      · rw [remove_one_none fs p hg]; exact hg
      · cases n with
        | file c m => rw [remove_one_file fs p c m hg]; exact fsGet_del_self fs p
        | symlink t =>
          rw [remove_one_symlink fs p t hg]; exact fsGet_del_self fs p
        | dir =>
          have hbelow : fsHasBelow fs p = false := by
            rw [fsHasBelow_false_iff]
            rintro pr hpr ⟨hpre, hnep⟩
            have hin := hclose p (List.mem_cons_self _ _) hg pr hpr hpre hnep
            rcases List.mem_cons.mp hin with he | htl
            · exact hnep he
            · exact (List.pairwise_cons.mp hpair).1 pr.1 htl
                ⟨hpre, fun h => hnep h.symm⟩
          rw [remove_one_dir fs p hg, hbelow, if_neg (by simp)]
          exact fsGet_del_self fs p
    rcases List.mem_cons.mp hq with rfl | hmem
    · rw [removeLoop_get_not_mem ps (remove_one fs q) q
        (List.nodup_cons.mp hnd).1, hstep]
    · have hqp : q ≠ p := by
        rintro rfl
        exact (List.nodup_cons.mp hnd).1 hmem
      apply ih (remove_one fs p) (List.nodup_cons.mp hnd).2
        ((List.pairwise_cons.mp hpair).2)
      · intro p1 hp1 hdir pr hpr hpre hnep
        have hp1p : p1 ≠ p := by
          rintro rfl
          exact (List.nodup_cons.mp hnd).1 hp1
        rw [remove_one_get_other fs p p1 hp1p] at hdir
        have hin := hclose p1 (List.mem_cons_of_mem _ hp1) hdir pr
          (remove_one_mem_subset fs p pr hpr) hpre hnep
        rcases List.mem_cons.mp hin with he | htl
        · exfalso
          have hnone : fsGet (remove_one fs p) pr.1 = none := by
            rw [he]; exact hstep
          exact fsGet_none_not_mem (remove_one fs p) pr.1 hnone pr.2
            (by rcases pr with ⟨a, b⟩; exact hpr)
        · exact htl
      · exact hmem

theorem sortedPathList_reverse_nodup (files : Finset Entry) :
    ((sortedPathList files).reverse).Nodup :=
  List.nodup_reverse.mpr (sortedPathList_nodup files)

theorem mem_sortedPathList_reverse (files : Finset Entry) (p : Path) :
    p ∈ (sortedPathList files).reverse ↔ ∃ e ∈ files, e.path = p := by
  rw [List.mem_reverse]
  exact mem_sortedPathList files p

/-- In the reverse-sorted processing order of `remove_files`, no path is
followed by one of its strict extensions: the extensions are removed
first. -/
theorem sortedPathList_reverse_pairwise (files : Finset Entry) :
    ((sortedPathList files).reverse).Pairwise
      (fun a b => ¬ (a <+: b ∧ a ≠ b)) := by
  rw [List.pairwise_reverse]
  apply (sortedPathList_sorted files).imp
  intro a b hab hc
  have hlt : pathLtB b a = true := pathLtB_of_prefix b a hc.1 hc.2
  have : pathLtB a b = true ∨ a = b := by
    have := hab
    simp only [pathLe, pathLeB, Bool.or_eq_true, decide_eq_true_eq] at this
    exact this
  rcases this with h | rfl
  · rw [pathLtB_asymm b a hlt] at h
    cases h
  · exact hc.2 rfl

theorem fsGet_isSome_of_mem (fs : FS) (pr : Path × Node) (h : pr ∈ fs) :
    (fsGet fs pr.1).isSome = true := by
  induction fs with
  | nil => simp at h
  | cons qr fs ih =>
    rw [fsGet_cons]
    by_cases hq : qr.1 = pr.1
    · rw [if_pos hq]; rfl
    · rw [if_neg hq]
      rcases List.mem_cons.mp h with he | htl
      · exact absurd (by rw [he]) hq
      · exact ih htl

theorem copy_one_isSome_inv (src dst : FS) (p q : Path)
    (h : (fsGet (copy_one src dst p) q).isSome = true) :
    (fsGet dst q).isSome = true ∨ q = p ∨ (q <+: p ∧ q ≠ p) := by
  by_cases hq : q = p
  · exact Or.inr (Or.inl hq)
  · rw [fsGet_copy_one_other src dst p q hq, fsGet_ensure_dir] at h
    by_cases hr : (fsGet dst p.dropLast).isSome
    · rw [if_pos hr] at h
      exact Or.inl h
    · rw [if_neg hr] at h
      by_cases hc : q <+: p.dropLast ∧ q ≠ [] ∧ fsGet dst q = none
      · refine Or.inr (Or.inr ?_)
        rw [prefix_dropLast_iff _ _ hc.2.1] at hc
        exact hc.1
      · rw [if_neg hc] at h
        exact Or.inl h

theorem copyLoop_isSome_inv (src : FS) (ps : List Path) (dst : FS) (q : Path)
    (h : (fsGet (copyLoop src ps dst) q).isSome = true) :
    (fsGet dst q).isSome = true ∨ q ∈ ps ∨
      (∃ p ∈ ps, q <+: p ∧ q ≠ p) := by
  induction ps generalizing dst with
  | nil => exact Or.inl h
  | cons p ps ih =>
    rw [copyLoop_cons] at h
    rcases ih (copy_one src dst p) h with h1 | h1 | h1
    · rcases copy_one_isSome_inv src dst p q h1 with h2 | h2 | h2
      · exact Or.inl h2
      · exact Or.inr (Or.inl (h2 ▸ List.mem_cons_self _ _))
      · exact Or.inr (Or.inr ⟨p, List.mem_cons_self _ _, h2⟩)
    · exact Or.inr (Or.inl (List.mem_cons_of_mem _ h1))
    · rcases h1 with ⟨p', hp', hrel⟩
      exact Or.inr (Or.inr ⟨p', List.mem_cons_of_mem _ hp', hrel⟩)

theorem nodeKind_dir_iff (n : Node) : nodeKind n = .directory ↔ n = .dir := by
  cases n <;> simp [nodeKind]

/-- A path all of whose extensions are allowed: `is_path_allowed` checks
every name of the path, so a prefix of an allowed path is allowed. -/
theorem is_path_allowed_of_prefix (fb : List Char) (p q : Path)
    (hpre : q <+: p) (h : is_path_allowed fb p = true) :
    is_path_allowed fb q = true := by
  rw [is_path_allowed, List.all_eq_true] at h ⊢
  intro x hx
  exact h x (hpre.subset hx)

/-- `DiffCopyMixin._copy_data` of `bcup/backup.py`, in the case where a
previous backup exists and compression is off: the previous snapshot's
data directory is renamed to become the new snapshot's data directory, an
empty data directory is recreated for the previous snapshot, the changed
and removed entries are copied from the just-moved (pre-update) data into
the previous snapshot's directory, and only then are the added and changed
entries copied from the source into the new data directory and the removed
entries deleted from it.  The pair returned is (new data, previous data).
`fb` is the forbidden-character set of the target filesystem and
`dataRoot`, `prevDataRoot` the destination root paths the copy checks. -/
def diff_copy_data (dm : DiffMap) (srcFs prevFs : FS) (fb : List Char)
    (dataRoot prevDataRoot : Path) : FS × FS :=
  let nData := prevFs
  let pData1 := copy_files dm.changed nData [] (some fb) prevDataRoot
  let pData2 := copy_files dm.removed nData pData1 (some fb) prevDataRoot
  let nData1 := copy_files dm.added srcFs nData (some fb) dataRoot
  let nData2 := copy_files dm.changed srcFs nData1 (some fb) dataRoot
  let nData3 := remove_files dm.removed nData2
  (nData3, pData2)

theorem dirClosed_nil : dirClosed ([] : FS) := by
  intro p q hp
  rw [fsGet_nil] at hp
  cases hp

/-- Closure fact feeding `removeLoop_get_mem` in the delta-chain copy: when
a removed directory still has an entry below it in the updated tree, that
entry's path is itself removed (its presence would otherwise force the
directory into the current catalog). -/
theorem delta_remove_closure (dm : DiffMap) (prevFs : FS)
    (last cur : Finset Entry)
    (hPlast : ∀ pr ∈ prevFs, Entry.mk (nodeKind pr.2) pr.1 ∈ last)
    (hinj : ∀ e ∈ last ∪ cur, ∀ f ∈ last ∪ cur, e.path = f.path → e = f)
    (hancC : ∀ e ∈ cur, ∀ q ∈ e.path.inits, q ≠ [] → q ≠ e.path →
      Entry.mk .directory q ∈ cur)
    (hne : ∀ e ∈ last ∪ cur, e.path ≠ [])
    (hadd : dm.added = cur \ last) (hrem : dm.removed = last \ cur)
    (hchg : dm.changed ⊆ last ∩ cur)
    (nData2 : FS)
    (hkeys : ∀ q, (fsGet nData2 q).isSome = true →
      (fsGet prevFs q).isSome = true ∨ q ∈ sortedPathList dm.added ∨
      (∃ p ∈ sortedPathList dm.added, q <+: p ∧ q ≠ p) ∨
      q ∈ sortedPathList dm.changed ∨
      (∃ p ∈ sortedPathList dm.changed, q <+: p ∧ q ≠ p)) :
    ∀ p1 ∈ (sortedPathList dm.removed).reverse,
      fsGet nData2 p1 = some .dir →
      ∀ pr ∈ nData2, p1 <+: pr.1 → pr.1 ≠ p1 →
        pr.1 ∈ (sortedPathList dm.removed).reverse := by
  intro p1 hp1 _ pr hpr hpre hnep
  rcases (mem_sortedPathList_reverse dm.removed p1).mp hp1 with ⟨f, hf, hfp⟩
  have hfl : f ∈ last := by
    rw [hrem] at hf
    exact (Finset.mem_sdiff.mp hf).1
  have hfnc : f ∉ cur := by
    rw [hrem] at hf
    exact (Finset.mem_sdiff.mp hf).2
  have hp1ne : p1 ≠ [] := by
    rw [← hfp]
    exact hne f (Finset.mem_union_left _ hfl)
  -- No entry of the current catalog sits at pr.1 (or the removed
  -- directory p1, its proper ancestor, would be in the current catalog).
  have hnocur : ∀ e ∈ cur, e.path ≠ pr.1 := by
    intro e he hep
    have hd : Entry.mk .directory p1 ∈ cur := by
      apply hancC e he p1
      · rw [List.mem_inits, hep]
        exact hpre
      · exact hp1ne
      · rw [hep]
        exact fun h => hnep h.symm
    have : f = Entry.mk .directory p1 := by
      apply hinj f (Finset.mem_union_left _ hfl) _
        (Finset.mem_union_right _ hd)
      rw [hfp]
    rw [this] at hfnc
    exact hfnc hd
  have hq'ne : pr.1 ≠ [] := by
    intro hx
    rw [hx, List.prefix_nil] at hpre
    exact hp1ne hpre
  have hsome := fsGet_isSome_of_mem nData2 pr hpr
  rcases hkeys pr.1 hsome with hk | hk | hk | hk | hk
  · rcases hg : fsGet prevFs pr.1 with _ | m
    · rw [hg] at hk; cases hk
    · have hmem := fsGet_mem prevFs pr.1 m hg
      have hglast := hPlast _ hmem
      have hgnc : Entry.mk (nodeKind m) pr.1 ∉ cur :=
        fun hx => hnocur _ hx rfl
      have hgrem : Entry.mk (nodeKind m) pr.1 ∈ dm.removed := by
        rw [hrem, Finset.mem_sdiff]
        exact ⟨hglast, hgnc⟩
      rw [mem_sortedPathList_reverse]
      exact ⟨_, hgrem, rfl⟩
  · rcases (mem_sortedPathList dm.added pr.1).mp hk with ⟨g, hg, hgp⟩
    exfalso
    apply hnocur g _ hgp
    rw [hadd] at hg
    exact (Finset.mem_sdiff.mp hg).1
  · rcases hk with ⟨p2, hp2, hrel⟩
    rcases (mem_sortedPathList dm.added p2).mp hp2 with ⟨g, hg, hgp⟩
    exfalso
    have hgc : g ∈ cur := by
      rw [hadd] at hg
      exact (Finset.mem_sdiff.mp hg).1
    have hd : Entry.mk .directory pr.1 ∈ cur := by
      apply hancC g hgc pr.1
      · rw [List.mem_inits, hgp]
        exact hrel.1
      · exact hq'ne
      · rw [hgp]
        exact hrel.2
    exact hnocur _ hd rfl
  · rcases (mem_sortedPathList dm.changed pr.1).mp hk with ⟨g, hg, hgp⟩
    exfalso
    apply hnocur g _ hgp
    exact (Finset.mem_inter.mp (hchg hg)).2
  · rcases hk with ⟨p2, hp2, hrel⟩
    rcases (mem_sortedPathList dm.changed p2).mp hp2 with ⟨g, hg, hgp⟩
    exfalso
    have hgc : g ∈ cur := (Finset.mem_inter.mp (hchg hg)).2
    have hd : Entry.mk .directory pr.1 ∈ cur := by
      apply hancC g hgc pr.1
      · rw [List.mem_inits, hgp]
        exact hrel.1
      · exact hq'ne
      · rw [hgp]
        exact hrel.2
    exact hnocur _ hd rfl

/-- Concrete delta-chain instance for the C1 counterexample: the previous
and current trees both hold the directory `a` and the file `a/b`, whose
bytes changed, so the diff is `changed = {a/b}` with nothing added or
removed. -/
def c1Src : FS := [(["a"], Node.dir), (["a", "b"], Node.file [2] 1)]

def c1Prev : FS := [(["a"], Node.dir), (["a", "b"], Node.file [1] 0)]

def c1Cat : Finset Entry := {Entry.mk .directory ["a"], Entry.mk .file ["a", "b"]}

def c1Dm : DiffMap :=
  ⟨∅, ∅, {Entry.mk .file ["a", "b"]}, {Entry.mk .directory ["a"]}⟩

/-- C1 counterexample: with the diff `changed = {a/b}`, `removed = {}`, the
delta-chain copy step leaves the directory entry `a` in the previous
snapshot's rebuilt data directory (created by `utils.ensure_dir` as the
parent of the copied file `a/b`), although `a` is in neither the changed
nor the removed part of the diff — so the previous snapshot's directory
does not hold *exactly* the changed and removed entries. -/
theorem C1_counterexample :
    create_diff_map c1Prev c1Cat c1Src = .ok c1Dm ∧
    fsGet (diff_copy_data c1Dm c1Src c1Prev [] ["nd"] ["pd"]).2 ["a"] =
      some Node.dir ∧
    (∀ e ∈ c1Dm.changed ∪ c1Dm.removed, e.path ≠ ["a"]) :=
  ⟨by decide, by decide, by decide⟩

/-- State of the previous snapshot's rebuilt data directory after the two
`copy_files` calls of the delta-chain copy step: exactly the changed and
removed entries, together with the ancestor directories created to contain
them, each carrying its pre-update content; nothing else. -/
theorem delta_prev_data_spec (dm : DiffMap) (prevFs : FS)
    (last cur : Finset Entry)
    (hlastP : ∀ e ∈ last, ∃ n, fsGet prevFs e.path = some n ∧
      nodeKind n = e.kind)
    (hinj : ∀ e ∈ last ∪ cur, ∀ f ∈ last ∪ cur, e.path = f.path → e = f)
    (hancC : ∀ e ∈ cur, ∀ q ∈ e.path.inits, q ≠ [] → q ≠ e.path →
      Entry.mk .directory q ∈ cur)
    (hancL : ∀ e ∈ last, ∀ q ∈ e.path.inits, q ≠ [] → q ≠ e.path →
      Entry.mk .directory q ∈ last)
    (hne : ∀ e ∈ last ∪ cur, e.path ≠ [])
    (hrem : dm.removed = last \ cur)
    (hchg : dm.changed ⊆ last ∩ cur)
    (hchgnd : ∀ e ∈ dm.changed, e.kind ≠ .directory) (p : Path) :
    (((∃ e ∈ dm.changed ∪ dm.removed, e.path = p) ∨
        (p ≠ [] ∧ ∃ e ∈ dm.changed ∪ dm.removed, p <+: e.path ∧ p ≠ e.path)) →
      fsGet (copyLoop prevFs (sortedPathList dm.removed)
        (copyLoop prevFs (sortedPathList dm.changed) [])) p = fsGet prevFs p) ∧
    ((¬ ((∃ e ∈ dm.changed ∪ dm.removed, e.path = p) ∨
        (p ≠ [] ∧ ∃ e ∈ dm.changed ∪ dm.removed, p <+: e.path ∧ p ≠ e.path))) →
      fsGet (copyLoop prevFs (sortedPathList dm.removed)
        (copyLoop prevFs (sortedPathList dm.changed) [])) p = none) := by
  have hEPlast : ∀ e ∈ dm.changed ∪ dm.removed, e ∈ last := by
    intro e he
    rcases Finset.mem_union.mp he with h | h
    · exact (Finset.mem_inter.mp (hchg h)).1
    · rw [hrem] at h
      exact (Finset.mem_sdiff.mp h).1
  have hchgcur : ∀ e ∈ dm.changed, e ∈ cur := by
    intro e he
    exact (Finset.mem_inter.mp (hchg he)).2
  have hremnc : ∀ e ∈ dm.removed, e ∉ cur := by
    intro e he
    rw [hrem] at he
    exact (Finset.mem_sdiff.mp he).2
  -- p cannot be a strict ancestor of a changed path while holding a
  -- non-directory or removed entry: the ancestors of changed entries are
  -- current directories.
  have hancChg : ∀ e ∈ dm.changed ∪ dm.removed, e.path = p →
      ∀ p2 ∈ sortedPathList dm.changed, ¬ (p ≠ [] ∧ p <+: p2 ∧ p ≠ p2) ∨
        Entry.mk .directory p ∈ cur := by
    intro e _ _ p2 hp2
    by_cases hc : p ≠ [] ∧ p <+: p2 ∧ p ≠ p2
    · rcases (mem_sortedPathList dm.changed p2).mp hp2 with ⟨g, hg, hgp⟩
      refine Or.inr (hancC g (hchgcur g hg) p ?_ hc.1 ?_)
      · rw [List.mem_inits, hgp]
        exact hc.2.1
      · rw [hgp]
        exact hc.2.2
    · exact Or.inl hc
  constructor
  · intro hcond
    by_cases hhit : ∃ e ∈ dm.changed ∪ dm.removed, e.path = p
    · rcases hhit with ⟨e, he, hep⟩
      have hel : e ∈ last := hEPlast e he
      rcases hlastP e hel with ⟨m, hgm, hkm⟩
      rw [hep] at hgm
      rcases Finset.mem_union.mp he with hec | her
      · -- changed entry: copied in the first call, untouched by the second
        have hmnd : m ≠ .dir := by
          intro hx
          rw [hx] at hkm
          exact hchgnd e hec (by rw [← hkm]; rfl)
        have h1 : fsGet (copyLoop prevFs (sortedPathList dm.changed) []) p =
            some m := by
          apply copyLoop_get_nondir prevFs _ [] p (sortedPathList_nodup _)
            ((mem_sortedPathList _ _).mpr ⟨e, hec, hep⟩) m hmnd hgm
        have hnr : p ∉ sortedPathList dm.removed := by
          intro hx
          rcases (mem_sortedPathList _ _).mp hx with ⟨f, hf, hfp⟩
          have : f = e := by
            apply hinj f (Finset.mem_union_left _ (hEPlast f
              (Finset.mem_union_right _ hf))) e
              (Finset.mem_union_left _ hel)
            rw [hfp, hep]
          rw [this] at hf
          exact hremnc e hf (hchgcur e hec)
        rw [copyLoop_get_occupied prevFs _ _ p hnr (by rw [h1]; rfl), h1, hgm]
      · -- removed entry: untouched by the first call, copied in the second
        have hnc : p ∉ sortedPathList dm.changed := by
          intro hx
          rcases (mem_sortedPathList _ _).mp hx with ⟨f, hf, hfp⟩
          have : f = e := by
            apply hinj f (Finset.mem_union_left _ (hEPlast f
              (Finset.mem_union_left _ hf))) e
              (Finset.mem_union_left _ hel)
            rw [hfp, hep]
          rw [this] at hf
          exact hremnc e her (hchgcur e hf)
        have hnanc : ∀ p2 ∈ sortedPathList dm.changed,
            ¬ (p ≠ [] ∧ p <+: p2 ∧ p ≠ p2) := by
          intro p2 hp2
          rcases hancChg e he hep p2 hp2 with h | h
          · exact h
          · intro hc
            have : Entry.mk .directory p = e := by
              apply hinj _ (Finset.mem_union_right _ h) e
                (Finset.mem_union_left _ hel)
              rw [hep]
            rw [this] at h
            exact hremnc e her h
        have h1 : fsGet (copyLoop prevFs (sortedPathList dm.changed) []) p =
            none := by
          rw [copyLoop_get_untouched prevFs _ [] p hnc
            (fun p2 hp2 hc => hnanc p2 hp2 ⟨hc.1, hc.2.1, hc.2.2⟩)]
          rfl
        have hinr : p ∈ sortedPathList dm.removed :=
          (mem_sortedPathList _ _).mpr ⟨e, her, hep⟩
        by_cases hmd : m = .dir
        · subst hmd
          rw [copyLoop_get_dir prevFs _ _ p (sortedPathList_nodup _) hinr hgm,
            h1, hgm]
          rfl
        · rw [copyLoop_get_nondir prevFs _ _ p (sortedPathList_nodup _)
            hinr m hmd hgm, hgm]
    · -- p is a proper ancestor of a changed or removed path
      rcases hcond with h | hcond
      · exact absurd h hhit
      rcases hcond with ⟨hpne, e, he, hpre, hnep⟩
      have hel : e ∈ last := hEPlast e he
      have hdl : Entry.mk .directory p ∈ last := by
        apply hancL e hel p _ hpne hnep
        rw [List.mem_inits]
        exact hpre
      rcases hlastP _ hdl with ⟨m, hgm, hkm⟩
      have hmd : m = .dir := (nodeKind_dir_iff m).mp hkm
      subst hmd
      have hnc : p ∉ sortedPathList dm.changed := by
        intro hx
        rcases (mem_sortedPathList _ _).mp hx with ⟨f, hf, hfp⟩
        exact hhit ⟨f, Finset.mem_union_left _ hf, hfp⟩
      have hnr : p ∉ sortedPathList dm.removed := by
        intro hx
        rcases (mem_sortedPathList _ _).mp hx with ⟨f, hf, hfp⟩
        exact hhit ⟨f, Finset.mem_union_right _ hf, hfp⟩
      by_cases hcanc : ∃ p2 ∈ sortedPathList dm.changed, p <+: p2 ∧ p ≠ p2
      · have h1 : fsGet (copyLoop prevFs (sortedPathList dm.changed) []) p =
            some Node.dir := by
          rw [copyLoop_get_ancestor prevFs _ [] p dirClosed_nil hnc hpne hcanc]
          rfl
        rw [copyLoop_get_occupied prevFs _ _ p hnr (by rw [h1]; rfl), h1, hgm]
      · have h1 : fsGet (copyLoop prevFs (sortedPathList dm.changed) []) p =
            none := by
          rw [copyLoop_get_untouched prevFs _ [] p hnc
            (fun p2 hp2 hc => hcanc ⟨p2, hp2, hc.2.1, hc.2.2⟩)]
          rfl
        have hranc : ∃ p2 ∈ sortedPathList dm.removed, p <+: p2 ∧ p ≠ p2 := by
          rcases Finset.mem_union.mp he with hec | her
          · exfalso
            exact hcanc ⟨e.path, (mem_sortedPathList _ _).mpr ⟨e, hec, rfl⟩,
              hpre, hnep⟩
          · exact ⟨e.path, (mem_sortedPathList _ _).mpr ⟨e, her, rfl⟩,
              hpre, hnep⟩
        rw [copyLoop_get_ancestor prevFs _ _ p
          (dirClosed_copyLoop prevFs _ [] dirClosed_nil) hnr hpne hranc, h1,
          hgm]
        rfl
  · intro hcond
    have hnc : p ∉ sortedPathList dm.changed := by
      intro hx
      rcases (mem_sortedPathList _ _).mp hx with ⟨f, hf, hfp⟩
      exact hcond (Or.inl ⟨f, Finset.mem_union_left _ hf, hfp⟩)
    have hnr : p ∉ sortedPathList dm.removed := by
      intro hx
      rcases (mem_sortedPathList _ _).mp hx with ⟨f, hf, hfp⟩
      exact hcond (Or.inl ⟨f, Finset.mem_union_right _ hf, hfp⟩)
    have hnca : ∀ p2 ∈ sortedPathList dm.changed,
        ¬ (p ≠ [] ∧ p <+: p2 ∧ p ≠ p2) := by
      rintro p2 hp2 ⟨h1, h2, h3⟩
      rcases (mem_sortedPathList _ _).mp hp2 with ⟨f, hf, hfp⟩
      exact hcond (Or.inr ⟨h1, f, Finset.mem_union_left _ hf,
        by rw [hfp]; exact h2, by rw [hfp]; exact h3⟩)
    have hnra : ∀ p2 ∈ sortedPathList dm.removed,
        ¬ (p ≠ [] ∧ p <+: p2 ∧ p ≠ p2) := by
      rintro p2 hp2 ⟨h1, h2, h3⟩
      rcases (mem_sortedPathList _ _).mp hp2 with ⟨f, hf, hfp⟩
      exact hcond (Or.inr ⟨h1, f, Finset.mem_union_right _ hf,
        by rw [hfp]; exact h2, by rw [hfp]; exact h3⟩)
    have h1 : fsGet (copyLoop prevFs (sortedPathList dm.changed) []) p =
        none := by
      rw [copyLoop_get_untouched prevFs _ [] p hnc hnca]
      rfl
    rw [copyLoop_get_untouched prevFs _ _ p hnr hnra, h1]

/-- State of the new snapshot's data directory after the delta-chain copy
step: applying `added` and `changed` from the source and deleting `removed`
turns the moved previous state into exactly the current source tree. -/
theorem delta_new_data_eq_source (dm : DiffMap) (srcFs prevFs : FS)
    (last cur : Finset Entry)
    (hcurS : ∀ e ∈ cur, ∃ n, fsGet srcFs e.path = some n ∧ nodeKind n = e.kind)
    (hScur : ∀ pr ∈ srcFs, Entry.mk (nodeKind pr.2) pr.1 ∈ cur)
    (hlastP : ∀ e ∈ last, ∃ n, fsGet prevFs e.path = some n ∧
      nodeKind n = e.kind)
    (hPlast : ∀ pr ∈ prevFs, Entry.mk (nodeKind pr.2) pr.1 ∈ last)
    (hinj : ∀ e ∈ last ∪ cur, ∀ f ∈ last ∪ cur, e.path = f.path → e = f)
    (hancC : ∀ e ∈ cur, ∀ q ∈ e.path.inits, q ≠ [] → q ≠ e.path →
      Entry.mk .directory q ∈ cur)
    (hne : ∀ e ∈ last ∪ cur, e.path ≠ [])
    (hadd : dm.added = cur \ last) (hrem : dm.removed = last \ cur)
    (hchg : dm.changed ⊆ last ∩ cur)
    (hchgnd : ∀ e ∈ dm.changed, e.kind ≠ .directory)
    (hsame : ∀ e ∈ last ∩ cur, e ∉ dm.changed →
      fsGet prevFs e.path = fsGet srcFs e.path) (p : Path) :
    fsGet (removeLoop ((sortedPathList dm.removed).reverse)
      (copyLoop srcFs (sortedPathList dm.changed)
        (copyLoop srcFs (sortedPathList dm.added) prevFs))) p =
      fsGet srcFs p := by
  have hchgcur : ∀ e ∈ dm.changed, e ∈ cur := by
    intro e he
    exact (Finset.mem_inter.mp (hchg he)).2
  have hchglast : ∀ e ∈ dm.changed, e ∈ last := by
    intro e he
    exact (Finset.mem_inter.mp (hchg he)).1
  have haddcur : ∀ e ∈ dm.added, e ∈ cur := by
    intro e he
    rw [hadd] at he
    exact (Finset.mem_sdiff.mp he).1
  have hremlast : ∀ e ∈ dm.removed, e ∈ last := by
    intro e he
    rw [hrem] at he
    exact (Finset.mem_sdiff.mp he).1
  have hremnc : ∀ e ∈ dm.removed, e ∉ cur := by
    intro e he
    rw [hrem] at he
    exact (Finset.mem_sdiff.mp he).2
  by_cases hcurp : ∃ e ∈ cur, e.path = p
  · rcases hcurp with ⟨e, hec, hep⟩
    rcases hcurS e hec with ⟨n, hgn, hkn⟩
    rw [hep] at hgn
    have hnremp : p ∉ (sortedPathList dm.removed).reverse := by
      intro hx
      rcases (mem_sortedPathList_reverse _ _).mp hx with ⟨f, hf, hfp⟩
      have : f = e := by
        apply hinj f (Finset.mem_union_left _ (hremlast f hf)) e
          (Finset.mem_union_right _ hec)
        rw [hfp, hep]
      rw [this] at hf
      exact hremnc e hf hec
    by_cases hel : e ∈ last
    · rcases hlastP e hel with ⟨m, hgm, hkm⟩
      rw [hep] at hgm
      have hnaps : p ∉ sortedPathList dm.added := by
        intro hx
        rcases (mem_sortedPathList _ _).mp hx with ⟨f, hf, hfp⟩
        have : f = e := by
          apply hinj f (Finset.mem_union_right _ (haddcur f hf)) e
            (Finset.mem_union_right _ hec)
          rw [hfp, hep]
        rw [this, hadd, Finset.mem_sdiff] at hf
        exact hf.2 hel
      have h1 : fsGet (copyLoop srcFs (sortedPathList dm.added) prevFs) p =
          fsGet prevFs p :=
        copyLoop_get_occupied srcFs _ prevFs p hnaps (by rw [hgm]; rfl)
      by_cases hech : e ∈ dm.changed
      · have hnd : n ≠ .dir := by
          intro hx
          rw [hx] at hkn
          exact hchgnd e hech (by rw [← hkn]; rfl)
        have h2 : fsGet (copyLoop srcFs (sortedPathList dm.changed)
            (copyLoop srcFs (sortedPathList dm.added) prevFs)) p = some n :=
          copyLoop_get_nondir srcFs _ _ p (sortedPathList_nodup _)
            ((mem_sortedPathList _ _).mpr ⟨e, hech, hep⟩) n hnd hgn
        rw [removeLoop_get_not_mem _ _ p hnremp, h2, hgn]
      · have heq : fsGet prevFs p = fsGet srcFs p := by
          have := hsame e (Finset.mem_inter.mpr ⟨hel, hec⟩) hech
          rw [hep] at this
          exact this
        have hncps : p ∉ sortedPathList dm.changed := by
          intro hx
          rcases (mem_sortedPathList _ _).mp hx with ⟨f, hf, hfp⟩
          have : f = e := by
            apply hinj f (Finset.mem_union_right _ (hchgcur f hf)) e
              (Finset.mem_union_right _ hec)
            rw [hfp, hep]
          rw [this] at hf
          exact hech hf
        have h2 : fsGet (copyLoop srcFs (sortedPathList dm.changed)
            (copyLoop srcFs (sortedPathList dm.added) prevFs)) p =
            fsGet prevFs p := by
          rw [copyLoop_get_occupied srcFs _ _ p hncps
            (by rw [h1, heq, hgn]; rfl), h1]
        rw [removeLoop_get_not_mem _ _ p hnremp, h2, heq]
    · have headd : e ∈ dm.added := by
        rw [hadd, Finset.mem_sdiff]
        exact ⟨hec, hel⟩
      have hprevnone : fsGet prevFs p = none := by
        rcases hg : fsGet prevFs p with _ | m
        · rfl
        · exfalso
          have hmem := fsGet_mem prevFs p m hg
          have hglast := hPlast _ hmem
          have : Entry.mk (nodeKind m) p = e := by
            apply hinj _ (Finset.mem_union_left _ hglast) e
              (Finset.mem_union_right _ hec)
            rw [hep]
          rw [this] at hglast
          exact hel hglast
      have hinaps : p ∈ sortedPathList dm.added :=
        (mem_sortedPathList _ _).mpr ⟨e, headd, hep⟩
      have h1 : fsGet (copyLoop srcFs (sortedPathList dm.added) prevFs) p =
          some n := by
        by_cases hnd : n = .dir
        · subst hnd
          rw [copyLoop_get_dir srcFs _ prevFs p (sortedPathList_nodup _)
            hinaps hgn, hprevnone]
          rfl
        · exact copyLoop_get_nondir srcFs _ prevFs p (sortedPathList_nodup _)
            hinaps n hnd hgn
      have hncps : p ∉ sortedPathList dm.changed := by
        intro hx
        rcases (mem_sortedPathList _ _).mp hx with ⟨f, hf, hfp⟩
        have : f = e := by
          apply hinj f (Finset.mem_union_right _ (hchgcur f hf)) e
            (Finset.mem_union_right _ hec)
          rw [hfp, hep]
        rw [this] at hf
        exact hel (hchglast e hf)
      have h2 : fsGet (copyLoop srcFs (sortedPathList dm.changed)
          (copyLoop srcFs (sortedPathList dm.added) prevFs)) p = some n := by
        rw [copyLoop_get_occupied srcFs _ _ p hncps (by rw [h1]; rfl), h1]
      rw [removeLoop_get_not_mem _ _ p hnremp, h2, hgn]
  · have hsrcnone : fsGet srcFs p = none := by
      rcases hg : fsGet srcFs p with _ | n
      · rfl
      · exfalso
        exact hcurp ⟨_, hScur _ (fsGet_mem srcFs p n hg), rfl⟩
    have hnaps : p ∉ sortedPathList dm.added := by
      intro hx
      rcases (mem_sortedPathList _ _).mp hx with ⟨f, hf, hfp⟩
      exact hcurp ⟨f, haddcur f hf, hfp⟩
    have hncps : p ∉ sortedPathList dm.changed := by
      intro hx
      rcases (mem_sortedPathList _ _).mp hx with ⟨f, hf, hfp⟩
      exact hcurp ⟨f, hchgcur f hf, hfp⟩
    have hnancA : ∀ p2 ∈ sortedPathList dm.added,
        ¬ (p ≠ [] ∧ p <+: p2 ∧ p ≠ p2) := by
      rintro p2 hp2 ⟨h1, h2, h3⟩
      rcases (mem_sortedPathList _ _).mp hp2 with ⟨f, hf, hfp⟩
      apply hcurp
      refine ⟨Entry.mk .directory p, ?_, rfl⟩
      apply hancC f (haddcur f hf) p _ h1 (by rw [hfp]; exact h3)
      rw [List.mem_inits, hfp]
      exact h2
    have hnancC : ∀ p2 ∈ sortedPathList dm.changed,
        ¬ (p ≠ [] ∧ p <+: p2 ∧ p ≠ p2) := by
      rintro p2 hp2 ⟨h1, h2, h3⟩
      rcases (mem_sortedPathList _ _).mp hp2 with ⟨f, hf, hfp⟩
      apply hcurp
      refine ⟨Entry.mk .directory p, ?_, rfl⟩
      apply hancC f (hchgcur f hf) p _ h1 (by rw [hfp]; exact h3)
      rw [List.mem_inits, hfp]
      exact h2
    have h1 : fsGet (copyLoop srcFs (sortedPathList dm.added) prevFs) p =
        fsGet prevFs p :=
      copyLoop_get_untouched srcFs _ prevFs p hnaps hnancA
    have h2 : fsGet (copyLoop srcFs (sortedPathList dm.changed)
        (copyLoop srcFs (sortedPathList dm.added) prevFs)) p =
        fsGet prevFs p := by
      rw [copyLoop_get_untouched srcFs _ _ p hncps hnancC, h1]
    by_cases hlastp : ∃ e ∈ last, e.path = p
    · rcases hlastp with ⟨e, hel, hep⟩
      have herem : e ∈ dm.removed := by
        rw [hrem, Finset.mem_sdiff]
        refine ⟨hel, fun hx => hcurp ⟨e, hx, hep⟩⟩
      have hkeys : ∀ q, (fsGet (copyLoop srcFs (sortedPathList dm.changed)
          (copyLoop srcFs (sortedPathList dm.added) prevFs)) q).isSome =
            true →
          (fsGet prevFs q).isSome = true ∨ q ∈ sortedPathList dm.added ∨
          (∃ p2 ∈ sortedPathList dm.added, q <+: p2 ∧ q ≠ p2) ∨
          q ∈ sortedPathList dm.changed ∨
          (∃ p2 ∈ sortedPathList dm.changed, q <+: p2 ∧ q ≠ p2) := by
        intro q hq
        rcases copyLoop_isSome_inv srcFs _ _ q hq with h | h | h
        · rcases copyLoop_isSome_inv srcFs _ prevFs q h with h' | h' | h'
          · exact Or.inl h'
          · exact Or.inr (Or.inl h')
          · exact Or.inr (Or.inr (Or.inl h'))
        · exact Or.inr (Or.inr (Or.inr (Or.inl h)))
        · exact Or.inr (Or.inr (Or.inr (Or.inr h)))
      rw [removeLoop_get_mem _ _ (sortedPathList_reverse_nodup _)
        (sortedPathList_reverse_pairwise _)
        (delta_remove_closure dm prevFs last cur hPlast hinj hancC hne hadd
          hrem hchg _ hkeys)
        p ((mem_sortedPathList_reverse _ _).mpr ⟨e, herem, hep⟩), hsrcnone]
    · have hprevnone : fsGet prevFs p = none := by
        rcases hg : fsGet prevFs p with _ | m
        · rfl
        · exfalso
          exact hlastp ⟨_, hPlast _ (fsGet_mem prevFs p m hg), rfl⟩
      have hnrem : p ∉ (sortedPathList dm.removed).reverse := by
        intro hx
        rcases (mem_sortedPathList_reverse _ _).mp hx with ⟨f, hf, hfp⟩
        exact hlastp ⟨f, hremlast f hf, hfp⟩
      rw [removeLoop_get_not_mem _ _ p hnrem, h2, hprevnone, hsrcnone]

/-- C1 (amended): delta-chain snapshot creation with a previous snapshot
proceeds by renaming the previous data directory to the new one,
recreating an empty directory for the previous snapshot, copying the
diff's changed and removed entries from the just-moved pre-update data
into it, and only then applying added and changed from the source to the
new directory and deleting the removed entries — so after the run the new
snapshot's data directory equals the current source tree, and the previous
snapshot's directory holds exactly the changed and removed entries from
the pre-update state together with the ancestor directories created to
contain them (each with its pre-update content), and nothing else.  The
hypotheses say that the two catalogs describe the two trees, that the
target filesystem allows both destination roots, that the trees are
hierarchically well-formed, and that the diff is the set-theoretic diff of
the catalogs whose unchanged entries are stored identically. -/
theorem C1_delta_chain_amended (dm : DiffMap) (srcFs prevFs : FS)
    (fb : List Char) (dataRoot prevDataRoot : Path)
    (last cur : Finset Entry)
    (hrootD : is_path_allowed fb dataRoot = true)
    (hrootP : is_path_allowed fb prevDataRoot = true)
    (hcurS : ∀ e ∈ cur, (fsGet srcFs e.path).map nodeKind = some e.kind)
    (hScur : ∀ pr ∈ srcFs, Entry.mk (nodeKind pr.2) pr.1 ∈ cur)
    (hlastP : ∀ e ∈ last, (fsGet prevFs e.path).map nodeKind = some e.kind)
    (hPlast : ∀ pr ∈ prevFs, Entry.mk (nodeKind pr.2) pr.1 ∈ last)
    (hinj : ∀ e ∈ last ∪ cur, ∀ f ∈ last ∪ cur, e.path = f.path → e = f)
    (hancC : ∀ e ∈ cur, ∀ q ∈ e.path.inits, q ≠ [] → q ≠ e.path →
      Entry.mk .directory q ∈ cur)
    (hancL : ∀ e ∈ last, ∀ q ∈ e.path.inits, q ≠ [] → q ≠ e.path →
      Entry.mk .directory q ∈ last)
    (hne : ∀ e ∈ last ∪ cur, e.path ≠ [])
    (hadd : dm.added = cur \ last) (hrem : dm.removed = last \ cur)
    (hchg : dm.changed ⊆ last ∩ cur)
    (hchgnd : ∀ e ∈ dm.changed, e.kind ≠ .directory)
    (hsame : ∀ e ∈ last ∩ cur, e ∉ dm.changed →
      fsGet prevFs e.path = fsGet srcFs e.path) :
    (∀ p, fsGet (diff_copy_data dm srcFs prevFs fb dataRoot
        prevDataRoot).1 p = fsGet srcFs p) ∧
    (∀ p, ((∃ e ∈ dm.changed ∪ dm.removed, e.path = p) ∨
        (p ≠ [] ∧ ∃ e ∈ dm.changed ∪ dm.removed, p <+: e.path ∧ p ≠ e.path)) →
      fsGet (diff_copy_data dm srcFs prevFs fb dataRoot prevDataRoot).2 p =
        fsGet prevFs p) ∧
    (∀ p, (¬ ((∃ e ∈ dm.changed ∪ dm.removed, e.path = p) ∨
        (p ≠ [] ∧ ∃ e ∈ dm.changed ∪ dm.removed,
          p <+: e.path ∧ p ≠ e.path))) →
      fsGet (diff_copy_data dm srcFs prevFs fb dataRoot prevDataRoot).2 p =
        none) := by
  have hcurS2 : ∀ e ∈ cur, ∃ n, fsGet srcFs e.path = some n ∧
      nodeKind n = e.kind := by
    intro e he
    rcases hg : fsGet srcFs e.path with _ | n
    · have := hcurS e he
      rw [hg] at this
      cases this
    · have := hcurS e he
      rw [hg] at this
      exact ⟨n, rfl, by simpa using this⟩
  have hlastP2 : ∀ e ∈ last, ∃ n, fsGet prevFs e.path = some n ∧
      nodeKind n = e.kind := by
    intro e he
    rcases hg : fsGet prevFs e.path with _ | n
    · have := hlastP e he
      rw [hg] at this
      cases this
    · have := hlastP e he
      rw [hg] at this
      exact ⟨n, rfl, by simpa using this⟩
  have e1 : (diff_copy_data dm srcFs prevFs fb dataRoot prevDataRoot).1 =
      removeLoop ((sortedPathList dm.removed).reverse)
        (copyLoop srcFs (sortedPathList dm.changed)
          (copyLoop srcFs (sortedPathList dm.added) prevFs)) := by
    show remove_files dm.removed
      (copy_files dm.changed srcFs
        (copy_files dm.added srcFs prevFs (some fb) dataRoot)
        (some fb) dataRoot) = _
    rw [copy_files_allowed dm.added srcFs prevFs fb dataRoot hrootD,
      copy_files_allowed dm.changed srcFs _ fb dataRoot hrootD,
      remove_files_eq_loop]
  have e2 : (diff_copy_data dm srcFs prevFs fb dataRoot prevDataRoot).2 =
      copyLoop prevFs (sortedPathList dm.removed)
        (copyLoop prevFs (sortedPathList dm.changed) []) := by
    show copy_files dm.removed prevFs
      (copy_files dm.changed prevFs [] (some fb) prevDataRoot)
      (some fb) prevDataRoot = _
    rw [copy_files_allowed dm.changed prevFs [] fb prevDataRoot hrootP,
      copy_files_allowed dm.removed prevFs _ fb prevDataRoot hrootP]
  refine ⟨fun p => ?_, fun p hc => ?_, fun p hc => ?_⟩
  · rw [e1]
    exact delta_new_data_eq_source dm srcFs prevFs last cur hcurS2 hScur
      hlastP2 hPlast hinj hancC hne hadd hrem hchg hchgnd hsame p
  · rw [e2]
    exact (delta_prev_data_spec dm prevFs last cur hlastP2 hinj hancC hancL
      hne hrem hchg hchgnd p).1 hc
  · rw [e2]
    exact (delta_prev_data_spec dm prevFs last cur hlastP2 hinj hancC hancL
      hne hrem hchg hchgnd p).2 hc

/-- Concrete instance for the C1 witness: one added file `c`, one changed
file `a/b` below the directory `a`, one removed file `d`. -/
def c1wSrc : FS :=
  [(["a"], Node.dir), (["a", "b"], Node.file [2] 1), (["c"], Node.file [5] 2)]

def c1wPrev : FS :=
  [(["a"], Node.dir), (["a", "b"], Node.file [1] 0), (["d"], Node.file [9] 0)]

def c1wLast : Finset Entry :=
  {Entry.mk .directory ["a"], Entry.mk .file ["a", "b"], Entry.mk .file ["d"]}

def c1wCur : Finset Entry :=
  {Entry.mk .directory ["a"], Entry.mk .file ["a", "b"], Entry.mk .file ["c"]}

def c1wDm : DiffMap :=
  ⟨{Entry.mk .file ["c"]}, {Entry.mk .file ["d"]},
    {Entry.mk .file ["a", "b"]}, {Entry.mk .directory ["a"]}⟩

theorem C1_delta_chain_amended_witness :
    fsGet (diff_copy_data c1wDm c1wSrc c1wPrev [] ["nd"] ["pd"]).1 ["c"] =
      fsGet c1wSrc ["c"] :=
  (C1_delta_chain_amended c1wDm c1wSrc c1wPrev [] ["nd"] ["pd"] c1wLast
    c1wCur (by decide) (by decide) (by decide) (by decide) (by decide)
    (by decide) (by decide) (by decide) (by decide) (by decide) (by decide)
    (by decide) (by decide) (by decide) (by decide)).1 ["c"]

/-- `BaseBackup._build_diff_map` of `bcup/backup.py`, for a repository
without compression: collect the catalog of the source tree, filter it by
the target filesystem's path validity — the filter is applied to the
source catalog only — and diff against the last backup's data when a
previous backup exists; with no previous backup, everything is `added`.
The source directory is read twice through its path: `srcWalk` is the tree
as seen by the catalog walk (`diff.collect_paths(self.source.source)`) and
`srcRead` the tree as seen by the later content reads inside
`filter_changed_files`; the two coincide unless the tree mutates during
the diff, which is the consistency-error scenario. -/
def build_diff_map (fb : List Char) (srcWalk srcRead : FS)
    (lastData : Option FS) : Except Unit DiffMap :=
  match lastData with
  | some lastFs =>
      create_diff_map lastFs
        ((collect_paths srcWalk).filter (fun e => is_path_allowed fb e.path))
        srcRead
  | none =>
      .ok ⟨(collect_paths srcWalk).filter (fun e => is_path_allowed fb e.path),
        ∅, ∅, ∅⟩

/-- C10: the path-validity filter of `_build_diff_map` is applied only to
the current source catalog, never to the previous snapshot's catalog: an
entry of the previous snapshot whose path the target filesystem disallows
is excluded from the current catalog before diffing, is therefore
classified as removed, and the delta-chain copy step deletes it from the
new head data directory — even if it still exists in the source tree. -/
theorem C10_filter_only_current (fb : List Char) (srcFs prevFs : FS)
    (dataRoot prevDataRoot : Path) (dm : DiffMap) (e : Entry)
    (hbd : build_diff_map fb srcFs srcFs (some prevFs) = .ok dm)
    (he : e ∈ collect_paths prevFs)
    (hdis : is_path_allowed fb e.path = false)
    (hsrce : e ∈ collect_paths srcFs)
    (hrootD : is_path_allowed fb dataRoot = true)
    (hrootP : is_path_allowed fb prevDataRoot = true)
    (hinj : ∀ a ∈ collect_paths prevFs ∪ collect_paths srcFs,
      ∀ f ∈ collect_paths prevFs ∪ collect_paths srcFs,
        a.path = f.path → a = f)
    (hancS : ∀ a ∈ collect_paths srcFs, ∀ q ∈ a.path.inits, q ≠ [] →
      q ≠ a.path → Entry.mk .directory q ∈ collect_paths srcFs)
    (hneS : ∀ pr ∈ srcFs, pr.1 ≠ [])
    (hneP : ∀ pr ∈ prevFs, pr.1 ≠ []) :
    e ∉ (collect_paths srcFs).filter (fun x => is_path_allowed fb x.path) ∧
    e ∈ dm.removed ∧
    fsGet (diff_copy_data dm srcFs prevFs fb dataRoot prevDataRoot).1 e.path
      = none := by
  have hcur := (collect_paths srcFs).filter (fun x => is_path_allowed fb x.path)
  have hecur : e ∉ (collect_paths srcFs).filter
      (fun x => is_path_allowed fb x.path) := by
    intro hx
    rw [Finset.mem_filter] at hx
    rw [hx.2] at hdis
    cases hdis
  have hcurall : ∀ f ∈ (collect_paths srcFs).filter
      (fun x => is_path_allowed fb x.path), is_path_allowed fb f.path = true := by
    intro f hf
    exact (Finset.mem_filter.mp hf).2
  have hcursub : ∀ f ∈ (collect_paths srcFs).filter
      (fun x => is_path_allowed fb x.path), f ∈ collect_paths srcFs := by
    intro f hf
    exact (Finset.mem_filter.mp hf).1
  -- unfold the diff computed by _build_diff_map
  have hbd2 : create_diff_map prevFs
      ((collect_paths srcFs).filter (fun x => is_path_allowed fb x.path))
      srcFs = .ok dm := hbd
  unfold create_diff_map at hbd2
  rcases hf : filter_changed_files
      (collect_paths prevFs ∩
        (collect_paths srcFs).filter (fun x => is_path_allowed fb x.path))
      srcFs prevFs with x | changed
  · rw [hf] at hbd2; cases hbd2
  rw [hf] at hbd2
  injection hbd2 with hdm
  have hdmadd : dm.added = (collect_paths srcFs).filter
      (fun x => is_path_allowed fb x.path) \ collect_paths prevFs := by
    rw [← hdm]
  have hdmrem : dm.removed = collect_paths prevFs \
      (collect_paths srcFs).filter (fun x => is_path_allowed fb x.path) := by
    rw [← hdm]
  have hdmchg : dm.changed = changed := by
    rw [← hdm]
  have hchgsub : dm.changed ⊆ collect_paths prevFs ∩
      (collect_paths srcFs).filter (fun x => is_path_allowed fb x.path) := by
    rw [hdmchg]
    unfold filter_changed_files at hf
    by_cases hacc : ∀ a ∈ collect_paths prevFs ∩
        (collect_paths srcFs).filter (fun x => is_path_allowed fb x.path),
        entry_access_ok srcFs prevFs a = true
    · rw [if_pos hacc] at hf
      cases hf
      exact Finset.filter_subset _ _
    · rw [if_neg hacc] at hf
      cases hf
  have herem : e ∈ dm.removed := by
    rw [hdmrem]
    exact Finset.mem_sdiff.mpr ⟨he, hecur⟩
  refine ⟨hecur, herem, ?_⟩
  -- the delta copy step deletes e.path from the new head
  have hsub : ∀ a, a ∈ collect_paths prevFs ∪
      (collect_paths srcFs).filter (fun x => is_path_allowed fb x.path) →
      a ∈ collect_paths prevFs ∪ collect_paths srcFs := by
    intro a ha
    rcases Finset.mem_union.mp ha with h | h
    · exact Finset.mem_union_left _ h
    · exact Finset.mem_union_right _ (hcursub a h)
  have hinj2 : ∀ a ∈ collect_paths prevFs ∪
      (collect_paths srcFs).filter (fun x => is_path_allowed fb x.path),
      ∀ f ∈ collect_paths prevFs ∪
        (collect_paths srcFs).filter (fun x => is_path_allowed fb x.path),
        a.path = f.path → a = f := by
    intro a ha f hff hp
    exact hinj a (hsub a ha) f (hsub f hff) hp
  have hancC2 : ∀ a ∈ (collect_paths srcFs).filter
      (fun x => is_path_allowed fb x.path),
      ∀ q ∈ a.path.inits, q ≠ [] → q ≠ a.path →
        Entry.mk .directory q ∈ (collect_paths srcFs).filter
          (fun x => is_path_allowed fb x.path) := by
    intro a ha q hq h1 h2
    rw [Finset.mem_filter]
    refine ⟨hancS a (hcursub a ha) q hq h1 h2, ?_⟩
    exact is_path_allowed_of_prefix fb a.path q ((List.mem_inits _ _).mp hq)
      (hcurall a ha)
  have hne2 : ∀ a ∈ collect_paths prevFs ∪
      (collect_paths srcFs).filter (fun x => is_path_allowed fb x.path),
      a.path ≠ [] := by
    intro a ha
    rcases Finset.mem_union.mp (hsub a ha) with h | h
    · rcases (mem_collect_paths _ _).mp h with ⟨pr, hpr, rfl⟩
      exact hneP pr hpr
    · rcases (mem_collect_paths _ _).mp h with ⟨pr, hpr, rfl⟩
      exact hneS pr hpr
  have hPlast : ∀ pr ∈ prevFs,
      Entry.mk (nodeKind pr.2) pr.1 ∈ collect_paths prevFs := by
    intro pr hpr
    exact (mem_collect_paths _ _).mpr ⟨pr, hpr, rfl⟩
  have e1 : (diff_copy_data dm srcFs prevFs fb dataRoot prevDataRoot).1 =
      removeLoop ((sortedPathList dm.removed).reverse)
        (copyLoop srcFs (sortedPathList dm.changed)
          (copyLoop srcFs (sortedPathList dm.added) prevFs)) := by
    show remove_files dm.removed
      (copy_files dm.changed srcFs
        (copy_files dm.added srcFs prevFs (some fb) dataRoot)
        (some fb) dataRoot) = _
    rw [copy_files_allowed dm.added srcFs prevFs fb dataRoot hrootD,
      copy_files_allowed dm.changed srcFs _ fb dataRoot hrootD,
      remove_files_eq_loop]
  rw [e1]
  have hkeys : ∀ q, (fsGet (copyLoop srcFs (sortedPathList dm.changed)
      (copyLoop srcFs (sortedPathList dm.added) prevFs)) q).isSome = true →
      (fsGet prevFs q).isSome = true ∨ q ∈ sortedPathList dm.added ∨
      (∃ p2 ∈ sortedPathList dm.added, q <+: p2 ∧ q ≠ p2) ∨
      q ∈ sortedPathList dm.changed ∨
      (∃ p2 ∈ sortedPathList dm.changed, q <+: p2 ∧ q ≠ p2) := by
    intro q hq
    rcases copyLoop_isSome_inv srcFs _ _ q hq with h | h | h
    · rcases copyLoop_isSome_inv srcFs _ prevFs q h with h2 | h2 | h2
      · exact Or.inl h2
      · exact Or.inr (Or.inl h2)
      · exact Or.inr (Or.inr (Or.inl h2))
    · exact Or.inr (Or.inr (Or.inr (Or.inl h)))
    · exact Or.inr (Or.inr (Or.inr (Or.inr h)))
  exact removeLoop_get_mem _ _ (sortedPathList_reverse_nodup _)
    (sortedPathList_reverse_pairwise _)
    (delta_remove_closure dm prevFs (collect_paths prevFs)
      ((collect_paths srcFs).filter (fun x => is_path_allowed fb x.path))
      hPlast hinj2 hancC2 hne2 hdmadd hdmrem hchgsub _ hkeys)
    e.path ((mem_sortedPathList_reverse _ _).mpr ⟨e, herem, rfl⟩)

/-- Concrete instance for the C10 witness: the file `x:y` exists in both
the previous snapshot and the source, and its name contains the forbidden
character `:`. -/
def c10Fs : FS := [(["x:y"], Node.file [1] 0)]

def c10Dm : DiffMap := ⟨∅, {Entry.mk .file ["x:y"]}, ∅, ∅⟩

theorem C10_filter_only_current_witness :
    Entry.mk .file ["x:y"] ∉ (collect_paths c10Fs).filter
      (fun x => is_path_allowed [':'] x.path) ∧
    Entry.mk .file ["x:y"] ∈ c10Dm.removed ∧
    fsGet (diff_copy_data c10Dm c10Fs c10Fs [':'] ["nd"] ["pd"]).1
      (Entry.mk .file ["x:y"]).path = none :=
  C10_filter_only_current [':'] c10Fs c10Fs ["nd"] ["pd"] c10Dm
    (Entry.mk .file ["x:y"]) (by decide) (by decide) (by decide) (by decide)
    (by decide) (by decide) (by decide) (by decide) (by decide) (by decide)

/-- C4 counterexample: the destination root `backup` is allowed under a
target filesystem forbidding `:`, while the entry `bad:name` has a
disallowed destination path `backup/bad:name`; `copy_files` nevertheless
writes the entry, because the check at the top of its loop reads
`dst_fs.is_path_allowed(dst)` — the destination root — instead of the
entry's destination path `dst_path`.  The claim demands that this entry be
skipped. -/
theorem C4_counterexample :
    is_path_allowed [':'] (["backup"] ++ ["bad:name"]) = false ∧
    fsGet (copy_files {Entry.mk .file ["bad:name"]}
        [(["bad:name"], Node.file [7] 0)] [] (some [':']) ["backup"])
      ["bad:name"] = some (Node.file [7] 0) :=
  ⟨by decide, by decide⟩

/-- C4 (amended): in the per-entry copy loop of `diff.copy_files` the
path-validity predicate is applied, before each entry, to the destination
root directory rather than to the entry's own destination path: when the
root is disallowed every entry is skipped and the destination is left
unchanged, and when the root is allowed every entry whose source node is a
regular file is written regardless of whether its own destination path is
allowed.  In both cases the copy is total — a disallowed path never fails
the run. -/
theorem C4_path_filter_amended (files : Finset Entry) (src dst : FS)
    (fb : List Char) (dstRoot : Path) :
    (is_path_allowed fb dstRoot = false →
      copy_files files src dst (some fb) dstRoot = dst) ∧
    (is_path_allowed fb dstRoot = true →
      ∀ e ∈ files, ∀ (c : List Nat) (m : Nat),
        fsGet src e.path = some (.file c m) →
        fsGet (copy_files files src dst (some fb) dstRoot) e.path =
          some (.file c m)) := by
  constructor
  · intro h
    exact copy_files_skip files src dst fb dstRoot h
  · intro h e he c m hsrc
    rw [copy_files_allowed files src dst fb dstRoot h]
    exact copyLoop_get_nondir src _ dst e.path (sortedPathList_nodup _)
      ((mem_sortedPathList _ _).mpr ⟨e, he, rfl⟩) _ (by simp) hsrc

theorem C4_path_filter_amended_witness :
    copy_files {Entry.mk .file ["ok"]} [(["ok"], Node.file [1] 0)] []
      (some [':']) ["bad:root"] = [] ∧
    fsGet (copy_files {Entry.mk .file ["bad:name"]}
        [(["bad:name"], Node.file [7] 0)] [] (some [':']) ["backup"])
      (Entry.mk .file ["bad:name"]).path = some (.file [7] 0) :=
  ⟨(C4_path_filter_amended {Entry.mk .file ["ok"]}
      [(["ok"], Node.file [1] 0)] [] [':'] ["bad:root"]).1 (by decide),
   (C4_path_filter_amended {Entry.mk .file ["bad:name"]}
      [(["bad:name"], Node.file [7] 0)] [] [':'] ["backup"]).2 (by decide)
      (Entry.mk .file ["bad:name"]) (by decide) [7] 0 (by decide)⟩

/-! Orchestration.  `BaseBackup.make` prepares the key, builds the diff
map, and only when `_has_changes` reports a difference creates the
snapshot directory and runs the strategy-specific copy, the metadata
write and the retention step — those three are abstract methods of
`BaseBackup`, provided by the mixins, and are represented below by an
opaque-to-the-theorem parameter `writeFn`. -/

/-- The metadata record saved by `_save_info` (`dt`, `key`, and the
`added`/`removed`/`changed` path lists). -/
structure InfoRec where
  dt : String
  key : String
  added : List Path
  removed : List Path
  changed : List Path
deriving DecidableEq

/-- One stored snapshot: its data tree and its metadata record (`None`
when the `info` file has not been written). -/
structure Snap where
  data : FS
  info : Option InfoRec
deriving DecidableEq

/-- A repository under one target path: the snapshot directories by key. -/
abbrev Repo := List (String × Snap)

/-- `BaseBackup._get_last_key` with `depth=1`: list the keys, sort, take
the last — i.e. the maximum key under string comparison (`None` for an
absent or empty repository); here computed as a fold over the listing. -/
def lastKey (repo : Repo) : Option String :=
  repo.foldl
    (fun acc pr =>
      match acc with
      | none => some pr.1
      | some k => if strLtB k pr.1 then some pr.1 else some k) none

/-- The last snapshot together with its key. -/
def getLastSnap (repo : Repo) : Option (String × Snap) :=
  match lastKey repo with
  | none => none
  | some k => (repo.find? (fun pr => decide (pr.1 = k))).map
      (fun pr => (k, pr.2))

/-- `BaseBackup._has_changes`: the diff map has a non-empty `added`,
`removed` or `changed` part. -/
def has_changes (dm : DiffMap) : Bool :=
  !decide (dm.added = ∅) || !decide (dm.removed = ∅) ||
    !decide (dm.changed = ∅)

/-- `BaseBackup.make`: build the diff map against the last snapshot's
data; on a diff-time error the exception propagates and nothing is
touched; with no changes nothing is written; otherwise the guarded block
(`utils.ensure_dir(self.path)`, `_copy_data`, `_save_info`,
`_remove_extra` — the mixin-provided `writeFn`) transforms the
repository. -/
def make (writeFn : DiffMap → Repo → Repo) (fb : List Char)
    (srcWalk srcRead : FS) (repo : Repo) : Repo × Except Unit Unit :=
  match build_diff_map fb srcWalk srcRead
      ((getLastSnap repo).map (fun pr => pr.2.data)) with
  | .error e => (repo, .error e)
  | .ok dm =>
      if has_changes dm then (writeFn dm repo, .ok ()) else (repo, .ok ())

theorem fsGet_filter_keys_none (fs : FS) (ok : Path → Bool) (p : Path)
    (h : ok p = false) :
    fsGet (fs.filter (fun pr => ok pr.1)) p = none := by
  rcases hg : fsGet (fs.filter (fun pr => ok pr.1)) p with _ | n
  · rfl
  · exfalso
    have := fsGet_mem _ p n hg
    rw [List.mem_filter] at this
    rw [this.2] at h
    cases h

theorem fsGet_filter_keys_some (fs : FS) (ok : Path → Bool) (p : Path)
    (h : ok p = true) :
    fsGet (fs.filter (fun pr => ok pr.1)) p = fsGet fs p := by
  apply fsGet_filter
  intro n
  exact h

theorem collect_paths_filter (fs : FS) (ok : Path → Bool) :
    collect_paths (fs.filter (fun pr => ok pr.1)) =
      (collect_paths fs).filter (fun e => ok e.path) := by
  ext e
  rw [mem_collect_paths, Finset.mem_filter, mem_collect_paths]
  constructor
  · rintro ⟨pr, hpr, rfl⟩
    rw [List.mem_filter] at hpr
    exact ⟨⟨pr, hpr.1, rfl⟩, hpr.2⟩
  · rintro ⟨⟨pr, hpr, rfl⟩, hok⟩
    refine ⟨pr, ?_, rfl⟩
    rw [List.mem_filter]
    exact ⟨hpr, hok⟩

/-- C5: for every strategy variant (any `writeFn`), if the computed diff
has empty `added`, `removed` and `changed` parts then `make` writes
nothing — the repository is returned untouched — and when the last
snapshot's data is exactly the allowed restriction of the current source
tree (an immediately repeated run with an unchanged source), the diff is
empty and no new snapshot is produced. -/
theorem C5_empty_diff_no_write (writeFn : DiffMap → Repo → Repo)
    (fb : List Char) (srcFs : FS) (repo : Repo) :
    (∀ dm, build_diff_map fb srcFs srcFs
        ((getLastSnap repo).map (fun pr => pr.2.data)) = .ok dm →
      has_changes dm = false →
      make writeFn fb srcFs srcFs repo = (repo, .ok ())) ∧
    (∀ k snap, getLastSnap repo = some (k, snap) → fsWf srcFs →
      snap.data = srcFs.filter (fun pr => is_path_allowed fb pr.1) →
      make writeFn fb srcFs srcFs repo = (repo, .ok ())) := by
  have hmk : ∀ dm, build_diff_map fb srcFs srcFs
      ((getLastSnap repo).map (fun pr => pr.2.data)) = .ok dm →
      has_changes dm = false →
      make writeFn fb srcFs srcFs repo = (repo, .ok ()) := by
    intro dm hbd hnc
    simp [make, hbd, hnc]
  refine ⟨hmk, ?_⟩
  intro k snap hlast hwf hdata
  have hcur : collect_paths snap.data =
      (collect_paths srcFs).filter (fun e => is_path_allowed fb e.path) := by
    rw [hdata, collect_paths_filter]
  have hsim : collect_paths snap.data ∩
      (collect_paths srcFs).filter (fun e => is_path_allowed fb e.path) =
      (collect_paths srcFs).filter (fun e => is_path_allowed fb e.path) := by
    rw [hcur, Finset.inter_self]
  have hget : ∀ e ∈ (collect_paths srcFs).filter
      (fun x => is_path_allowed fb x.path),
      ∃ n, fsGet srcFs e.path = some n ∧ nodeKind n = e.kind ∧
        fsGet snap.data e.path = some n := by
    intro e he
    rw [Finset.mem_filter] at he
    rcases (mem_collect_paths _ _).mp he.1 with ⟨pr, hpr, rfl⟩
    refine ⟨pr.2, mem_fsGet srcFs hwf pr.1 pr.2 (by rcases pr with ⟨a, b⟩; exact hpr),
      rfl, ?_⟩
    rw [hdata, fsGet_filter_keys_some srcFs _ _ he.2]
    exact mem_fsGet srcFs hwf pr.1 pr.2 (by rcases pr with ⟨a, b⟩; exact hpr)
  have hacc : ∀ e ∈ collect_paths snap.data ∩
      (collect_paths srcFs).filter (fun x => is_path_allowed fb x.path),
      entry_access_ok srcFs snap.data e = true := by
    intro e he
    rw [hsim] at he
    rcases hget e he with ⟨n, h1, h2, h3⟩
    rcases e with ⟨kind, p⟩
    simp only at h1 h2 h3
    cases kind with
    | file =>
      simp only [entry_access_ok]
      rw [h1, h3]
      rfl
    | symlink =>
      have : ∃ t, n = Node.symlink t := by
        cases n with
        | file c m => cases h2
        | symlink t => exact ⟨t, rfl⟩
        | dir => cases h2
      rcases this with ⟨t, rfl⟩
      simp only [entry_access_ok]
      rw [h1, h3]
      rfl
    | directory => rfl
  have hnochg : ∀ e ∈ collect_paths snap.data ∩
      (collect_paths srcFs).filter (fun x => is_path_allowed fb x.path),
      entry_changed srcFs snap.data e = false := by
    intro e he
    rw [hsim] at he
    rcases hget e he with ⟨n, h1, h2, h3⟩
    rcases e with ⟨kind, p⟩
    simp only at h1 h2 h3
    cases kind with
    | file =>
      have : ∃ c m, n = Node.file c m := by
        cases n with
        | file c m => exact ⟨c, m, rfl⟩
        | symlink t => cases h2
        | dir => cases h2
      rcases this with ⟨c, m, rfl⟩
      simp only [entry_changed]
      rw [h1, h3]
      have hc : filecmp_cmp c m c m = true := by
        unfold filecmp_cmp
        rw [if_pos ⟨rfl, rfl⟩]
      show (!filecmp_cmp c m c m) = false
      rw [hc]
      rfl
    | symlink =>
      have : ∃ t, n = Node.symlink t := by
        cases n with
        | file c m => cases h2
        | symlink t => exact ⟨t, rfl⟩
        | dir => cases h2
      rcases this with ⟨t, rfl⟩
      simp only [entry_changed]
      rw [h1, h3]
      show decide (t ≠ t) = false
      simp
    | directory => rfl
  have hfcf : filter_changed_files
      (collect_paths snap.data ∩
        (collect_paths srcFs).filter (fun x => is_path_allowed fb x.path))
      srcFs snap.data = .ok ∅ := by
    unfold filter_changed_files
    rw [if_pos hacc]
    congr 1
    rw [Finset.filter_eq_empty_iff]
    intro e he
    rw [hnochg e he]
    simp
  have hbd : build_diff_map fb srcFs srcFs (some snap.data) =
      .ok ⟨∅, ∅, ∅,
        (collect_paths snap.data ∩
          (collect_paths srcFs).filter (fun x => is_path_allowed fb x.path))
          \ ∅⟩ := by
    have ha : ((collect_paths srcFs).filter
        (fun e => is_path_allowed fb e.path)) \ collect_paths snap.data =
        (∅ : Finset Entry) := by
      rw [hcur, Finset.sdiff_self]
    have hr : collect_paths snap.data \ ((collect_paths srcFs).filter
        (fun e => is_path_allowed fb e.path)) = (∅ : Finset Entry) := by
      rw [hcur, Finset.sdiff_self]
    show create_diff_map snap.data
      ((collect_paths srcFs).filter (fun e => is_path_allowed fb e.path))
      srcFs = _
    unfold create_diff_map
    rw [hfcf]
    show Except.ok (DiffMap.mk
      (((collect_paths srcFs).filter (fun e => is_path_allowed fb e.path)) \
        collect_paths snap.data)
      (collect_paths snap.data \ ((collect_paths srcFs).filter
        (fun e => is_path_allowed fb e.path)))
      ∅
      ((collect_paths snap.data ∩ ((collect_paths srcFs).filter
        (fun e => is_path_allowed fb e.path))) \ ∅)) = _
    rw [ha, hr]
  apply hmk
  · rw [hlast]
    exact hbd
  · rfl

/-- Concrete inputs for the C5 witness. -/
def c5Src : FS := [(["a"], Node.file [1] 2)]

def c5Snap : Snap := ⟨c5Src, some ⟨"d", "k1", [], [], []⟩⟩

def c5Repo : Repo := [("k1", c5Snap)]

theorem C5_empty_diff_no_write_witness :
    make (fun _ _ => []) [] c5Src c5Src c5Repo = (c5Repo, .ok ()) :=
  (C5_empty_diff_no_write (fun _ _ => []) [] c5Src c5Repo).2 "k1" c5Snap
    (by decide) (by show (c5Src.map Prod.fst).Nodup; decide) (by decide)

/-- C6: if content access fails during diff computation — an entry of the
similar set whose content can no longer be read (`srcRead` differs from
the walked tree) — the snapshot attempt fails before any snapshot data or
metadata is written: `make` propagates the error and returns the
repository exactly as it was, for every strategy variant. -/
theorem C6_diff_error_no_write (writeFn : DiffMap → Repo → Repo)
    (fb : List Char) (srcWalk srcRead : FS) (repo : Repo) (k : String)
    (snap : Snap) (e : Entry)
    (hlast : getLastSnap repo = some (k, snap))
    (hmem : e ∈ collect_paths snap.data ∩
      (collect_paths srcWalk).filter (fun x => is_path_allowed fb x.path))
    (hacc : entry_access_ok srcRead snap.data e = false) :
    make writeFn fb srcWalk srcRead repo = (repo, .error ()) := by
  have hfcf : filter_changed_files
      (collect_paths snap.data ∩
        (collect_paths srcWalk).filter (fun x => is_path_allowed fb x.path))
      srcRead snap.data = .error () := by
    unfold filter_changed_files
    rw [if_neg]
    intro hall
    have := hall e hmem
    rw [hacc] at this
    cases this
  have hbd : build_diff_map fb srcWalk srcRead (some snap.data) =
      .error () := by
    show create_diff_map snap.data
      ((collect_paths srcWalk).filter (fun x => is_path_allowed fb x.path))
      srcRead = _
    unfold create_diff_map
    rw [hfcf]
  unfold make
  rw [hlast]
  show (match build_diff_map fb srcWalk srcRead (some snap.data) with
    | .error e => (repo, Except.error e)
    | .ok dm => if has_changes dm then (writeFn dm repo, Except.ok ())
        else (repo, Except.ok ())) = (repo, Except.error ())
  rw [hbd]

/-- Concrete inputs for the C6 witness: the catalog walk still saw the
file `a`, but by the time the contents are compared the source tree no
longer holds it. -/
def c6Walk : FS := [(["a"], Node.file [1] 2)]

theorem C6_diff_error_no_write_witness :
    make (fun _ _ => []) [] c6Walk [] c5Repo = (c5Repo, .error ()) :=
  C6_diff_error_no_write (fun _ _ => []) [] c6Walk [] c5Repo "k1" c5Snap
    (Entry.mk .file ["a"]) (by decide) (by decide) (by decide)

/-! Retention.  `LastExtraMixin._remove_extra` and
`FullExtraMixin._remove_extra` prune the snapshot directories under
`self.source.path`; below they are modelled on the listing of keys, the
result being the listing that remains after the deletions. -/

theorem strLtB_asymm (a b : String) (h : strLtB a b = true) :
    strLtB b a = false := by
  by_cases h2 : strLtB b a = true
  · have := strLtB_trans a b a h h2
    rw [strLtB_irrefl] at this
    cases this
  · simpa using h2

/-- Reflexive closure of the string comparison. -/
def strLeB (a b : String) : Bool := strLtB a b || decide (a = b)

/-- The string order as a relation. -/
def strLe (a b : String) : Prop := strLeB a b = true

theorem strLe_trans (a b c : String) (h1 : strLe a b) (h2 : strLe b c) :
    strLe a c := by
  simp only [strLe, strLeB, Bool.or_eq_true, decide_eq_true_eq] at *
  rcases h1 with h1 | rfl
  · rcases h2 with h2 | rfl
    · exact Or.inl (strLtB_trans a b c h1 h2)
    · exact Or.inl h1
  · exact h2

theorem strLe_total (a b : String) : strLe a b ∨ strLe b a := by
  by_cases h1 : strLtB a b = true
  · exact Or.inl (by simp [strLe, strLeB, h1])
  · by_cases h2 : strLtB b a = true
    · exact Or.inr (by simp [strLe, strLeB, h2])
    · have := strLtB_total a b (by simpa using h1) (by simpa using h2)
      exact Or.inl (by simp [strLe, strLeB, this])

/-- Insert a key into an already sorted listing. -/
def insertKey (a : String) : List String → List String
  | [] => [a]
  | b :: l => if strLeB a b then a :: b :: l else b :: insertKey a l

/-- `keys.sort()`: ascending insertion sort of the snapshot keys. -/
def sortKeys (l : List String) : List String := l.foldr insertKey []

theorem insertKey_perm (a : String) (l : List String) :
    (insertKey a l).Perm (a :: l) := by
  induction l with
  | nil => exact List.Perm.refl _
  | cons b l ih =>
    rw [insertKey]
    by_cases h : strLeB a b
    · rw [if_pos h]
    · rw [if_neg h]
      exact (ih.cons b).trans (List.Perm.swap a b l)

theorem sortKeys_perm (l : List String) : (sortKeys l).Perm l := by
  induction l with
  | nil => exact List.Perm.refl _
  | cons a l ih =>
    rw [sortKeys, List.foldr_cons]
    exact (insertKey_perm _ _).trans (ih.cons a)

theorem mem_insertKey (a b : String) (l : List String) :
    b ∈ insertKey a l ↔ b = a ∨ b ∈ l := by
  rw [(insertKey_perm a l).mem_iff, List.mem_cons]

theorem insertKey_sorted (a : String) (l : List String)
    (h : l.Pairwise strLe) : (insertKey a l).Pairwise strLe := by
  induction l with
  | nil => simp [insertKey, List.pairwise_cons, strLe]
  | cons b l ih =>
    rw [insertKey]
    by_cases hle : strLeB a b
    · rw [if_pos hle]
      rw [List.pairwise_cons]
      refine ⟨?_, h⟩
      intro c hc
      rcases List.mem_cons.mp hc with rfl | hc
      · exact hle
      · exact strLe_trans a b c hle ((List.pairwise_cons.mp h).1 c hc)
    · rw [if_neg hle]
      rw [List.pairwise_cons]
      refine ⟨?_, ih (List.pairwise_cons.mp h).2⟩
      intro c hc
      rcases (mem_insertKey a c l).mp hc with rfl | hc
      · rcases strLe_total c b with hx | hx
        · exact absurd hx hle
        · exact hx
      · exact (List.pairwise_cons.mp h).1 c hc

theorem sortKeys_sorted (l : List String) : (sortKeys l).Pairwise strLe := by
  induction l with
  | nil => exact List.Pairwise.nil
  | cons a l ih =>
    rw [sortKeys, List.foldr_cons]
    exact insertKey_sorted a (sortKeys l) ih

/-- Rank characterization of a sorted Nodup listing: a key lies in the
first `m` positions exactly when fewer than `m` keys compare strictly
below it. -/
theorem sorted_take_mem_iff (k : String) :
    ∀ (l : List String) (m : Nat), l.Pairwise strLe → l.Nodup → k ∈ l →
      (k ∈ l.take m ↔ (l.filter (fun j => strLtB j k)).length < m)
  | [], _, _, _, hmem => absurd hmem (by simp)
  | a :: l, m, hsort, hnd, hmem => by
      rw [List.pairwise_cons] at hsort
      rw [List.nodup_cons] at hnd
      by_cases hka : k = a
      · subst hka
        have hfe : (k :: l).filter (fun j => strLtB j k) = [] := by
          rw [List.filter_eq_nil_iff]
          intro j hj
          rcases List.mem_cons.mp hj with rfl | hj
          · rw [strLtB_irrefl]
            simp
          · have hle : strLeB k j = true := hsort.1 j hj
            have hne : j ≠ k := fun h => hnd.1 (h ▸ hj)
            rw [strLeB, Bool.or_eq_true, decide_eq_true_eq] at hle
            rcases hle with hlt | rfl
            · rw [strLtB_asymm k j hlt]
              simp
            · exact absurd rfl hne
        rw [hfe]
        cases m with
        | zero => simp
        | succ m => simp [List.take_succ_cons]
      · have hmem2 : k ∈ l := by
          rcases List.mem_cons.mp hmem with rfl | h
          · exact absurd rfl hka
          · exact h
        have hlt : strLtB a k = true := by
          have hle : strLeB a k = true := hsort.1 k hmem2
          rw [strLeB, Bool.or_eq_true, decide_eq_true_eq] at hle
          rcases hle with h | rfl
          · exact h
          · exact absurd rfl hka
        have hfe : (a :: l).filter (fun j => strLtB j k) =
            a :: l.filter (fun j => strLtB j k) := by
          rw [List.filter_cons_of_pos]
          exact hlt
        rw [hfe]
        cases m with
        | zero => simp
        | succ m =>
          rw [List.take_succ_cons, List.mem_cons]
          have ih := sorted_take_mem_iff k l m hsort.2 hnd.2 hmem2
          simp only [List.length_cons]
          constructor
          · rintro (rfl | h)
            · exact absurd rfl hka
            · exact Nat.succ_lt_succ (ih.mp h)
          · intro h
            exact Or.inr (ih.mpr (Nat.lt_of_succ_lt_succ h))

/-- `LastExtraMixin._remove_extra`: every listed key that differs from
the current snapshot's key is deleted; the keys that remain. -/
def last_remove_extra (selfKey : String) (keys : List String) :
    List String :=
  keys.filter (fun k => ! decide (k ≠ selfKey))

/-- `FullExtraMixin._remove_extra`: when `self.source.limit` is truthy
(`None` and `0` are both falsy) and more keys are listed than the limit,
the keys are sorted ascending and the first `len − limit` are deleted;
the keys that remain. -/
def full_remove_extra (limit : Option Nat) (keys : List String) :
    List String :=
  match limit with
  | none => keys
  | some 0 => keys
  | some (n + 1) =>
      if keys.length > n + 1 then
        keys.filter (fun k =>
          ! ((sortKeys keys).take (keys.length - (n + 1))).contains k)
      else keys

/-- C8: under the keep-only-newest retention policy, when the just-created
key is listed (and keys are distinct, as directory names are), every key
different from it is deleted and exactly the new snapshot remains. -/
theorem C8_keep_only_newest (selfKey : String) (keys : List String)
    (hnd : keys.Nodup) (hmem : selfKey ∈ keys) :
    last_remove_extra selfKey keys = [selfKey] := by
  induction keys with
  | nil => exact absurd hmem (by simp)
  | cons a keys ih =>
    rw [List.nodup_cons] at hnd
    by_cases ha : selfKey = a
    · subst ha
      rw [last_remove_extra, List.filter_cons_of_pos (by simp)]
      have : keys.filter (fun k => ! decide (k ≠ selfKey)) = [] := by
        rw [List.filter_eq_nil_iff]
        intro j hj
        have : j ≠ selfKey := fun h => hnd.1 (h ▸ hj)
        simp [this]
      rw [last_remove_extra] at *
      rw [this]
    · have hmem2 : selfKey ∈ keys := by
        rcases List.mem_cons.mp hmem with rfl | h
        · exact absurd rfl ha
        · exact h
      have hne : a ≠ selfKey := fun h => ha h.symm
      rw [last_remove_extra, List.filter_cons_of_neg (by simp [hne])]
      exact ih hnd.2 hmem2

theorem C8_keep_only_newest_witness :
    (["a", "b"] : List String).Nodup ∧ "b" ∈ (["a", "b"] : List String) ∧
    last_remove_extra "b" ["a", "b"] = ["b"] :=
  ⟨by decide, by decide, C8_keep_only_newest "b" ["a", "b"] (by decide)
    (by decide)⟩

/-- C7 counterexample: `limit = 0` is a finite limit, yet
`if self.source.limit:` treats `0` as falsy, so nothing is pruned — after
a run that created snapshot `k` the repository holds 1 > 0 snapshots. -/
theorem C7_counterexample :
    full_remove_extra (some 0) ["k"] = ["k"] ∧
    ¬ ((full_remove_extra (some 0) ["k"]).length ≤ 0) := by
  decide

/-- C7 (amended): with a finite limit `n ≥ 1` and distinct listed keys
including the just-created maximal one, at most `n` keys remain, the
just-created key among them, and a key is deleted exactly when its rank
in ascending order is below `count − n`; with the limit unset — or set to
`0`, which the truthiness test treats as unset — nothing is deleted. -/
theorem C7_keep_last_amended (n : Nat) (keys : List String)
    (newKey : String) (hn : 1 ≤ n) (hnd : keys.Nodup) (hmem : newKey ∈ keys)
    (hmax : ∀ k ∈ keys, strLeB k newKey = true) :
    (full_remove_extra (some n) keys).length ≤ n ∧
    newKey ∈ full_remove_extra (some n) keys ∧
    (∀ k ∈ keys, (k ∉ full_remove_extra (some n) keys ↔
      (keys.filter (fun j => strLtB j k)).length + n < keys.length)) ∧
    full_remove_extra none keys = keys ∧
    full_remove_extra (some 0) keys = keys := by
  obtain ⟨m, rfl⟩ : ∃ m, n = m + 1 := ⟨n - 1, by omega⟩
  have hperm : (sortKeys keys).Perm keys := sortKeys_perm keys
  have hsnd : (sortKeys keys).Nodup := hperm.nodup_iff.mpr hnd
  have hss : (sortKeys keys).Pairwise strLe := sortKeys_sorted keys
  by_cases hlen : keys.length > m + 1
  · have heq : full_remove_extra (some (m + 1)) keys =
        keys.filter (fun k =>
          ! ((sortKeys keys).take (keys.length - (m + 1))).contains k) := by
      rw [full_remove_extra, if_pos hlen]
    have hiff : ∀ k ∈ keys, (k ∉ full_remove_extra (some (m + 1)) keys ↔
        (keys.filter (fun j => strLtB j k)).length + (m + 1) <
          keys.length) := by
      intro k hk
      rw [heq]
      have h1 : k ∉ keys.filter (fun x =>
          ! ((sortKeys keys).take (keys.length - (m + 1))).contains x) ↔
          k ∈ (sortKeys keys).take (keys.length - (m + 1)) := by
        rw [List.mem_filter]
        constructor
        · intro h
          by_contra hnin
          exact h ⟨hk, by simp [List.elem_iff, hnin]⟩
        · intro h hfil
          have := hfil.2
          simp [List.elem_iff, h] at this
      rw [h1, sorted_take_mem_iff k (sortKeys keys) _ hss hsnd
        (hperm.mem_iff.mpr hk)]
      have h2 : ((sortKeys keys).filter (fun j => strLtB j k)).length =
          (keys.filter (fun j => strLtB j k)).length :=
        (hperm.filter _).length_eq
      rw [h2]
      omega
    refine ⟨?_, ?_, hiff, rfl, rfl⟩
    · obtain ⟨t, ht⟩ : ∃ t, t = (sortKeys keys).take
          (keys.length - (m + 1)) := ⟨_, rfl⟩
      rw [← ht] at heq
      have hp : (full_remove_extra (some (m + 1)) keys).Perm
          ((sortKeys keys).filter (fun k => ! t.contains k)) := by
        rw [heq]
        exact (hperm.filter _).symm
      rw [hp.length_eq]
      have hsplit : ((sortKeys keys).filter (fun k => ! t.contains k)).length
          = (((sortKeys keys).take (keys.length - (m + 1))).filter
              (fun k => ! t.contains k)).length +
            (((sortKeys keys).drop (keys.length - (m + 1))).filter
              (fun k => ! t.contains k)).length := by
        rw [← List.length_append, ← List.filter_append,
          List.take_append_drop]
      have hfe : ((sortKeys keys).take (keys.length - (m + 1))).filter
          (fun k => ! t.contains k) = [] := by
        rw [List.filter_eq_nil_iff]
        intro a ha
        rw [ht]
        simp [List.elem_iff, ha]
      rw [hsplit, hfe]
      calc 0 + (((sortKeys keys).drop (keys.length - (m + 1))).filter
            (fun k => ! t.contains k)).length
          ≤ ((sortKeys keys).drop (keys.length - (m + 1))).length := by
            rw [Nat.zero_add]
            exact List.length_filter_le _ _
        _ ≤ m + 1 := by
            rw [List.length_drop, hperm.length_eq]
            omega
    · by_contra hnin
      have hc := (hiff newKey hmem).mp hnin
      have hrank : (keys.filter (fun j => strLtB j newKey)).length =
          keys.length - 1 := by
        have hcongr : keys.filter (fun j => strLtB j newKey) =
            keys.filter (fun j => j != newKey) := by
          apply List.filter_congr
          intro j hj
          by_cases hje : j = newKey
          · subst hje
            rw [strLtB_irrefl]
            simp
          · have hle := hmax j hj
            rw [strLeB, Bool.or_eq_true, decide_eq_true_eq] at hle
            rcases hle with h | h
            · rw [h]
              simp [bne_iff_ne, hje]
            · exact absurd h hje
        rw [hcongr, ← List.Nodup.erase_eq_filter hnd,
          List.length_erase_of_mem hmem]
      have hpos : 1 ≤ keys.length := List.length_pos.mpr
        (List.ne_nil_of_mem hmem)
      omega
  · have heq : full_remove_extra (some (m + 1)) keys = keys := by
      rw [full_remove_extra, if_neg hlen]
    rw [heq]
    refine ⟨by omega, hmem, ?_, rfl, rfl⟩
    intro k hk
    constructor
    · intro h
      exact absurd hk h
    · intro h
      omega

theorem C7_keep_last_amended_witness :
    (full_remove_extra (some 1) ["a", "b"]).length ≤ 1 ∧
    "b" ∈ full_remove_extra (some 1) ["a", "b"] ∧
    (∀ k ∈ (["a", "b"] : List String),
      (k ∉ full_remove_extra (some 1) ["a", "b"] ↔
        ((["a", "b"] : List String).filter
          (fun j => strLtB j k)).length + 1 <
          (["a", "b"] : List String).length)) ∧
    full_remove_extra none ["a", "b"] = ["a", "b"] ∧
    full_remove_extra (some 0) ["a", "b"] = ["a", "b"] :=
  C7_keep_last_amended 1 ["a", "b"] "b" (by decide) (by decide) (by decide)
    (by decide)

/-! Snapshot keys.  `BaseBackup._build_key` rewrites each of the format
characters `YymdHMSf` into the corresponding `%`-directive and hands the
result to `datetime.strftime`; every other character passes through
verbatim.  The `datetime` value is modelled by its numeric fields and the
strftime directives by their zero-padded decimal expansions. -/

/-- The timestamp handed to `_build_key` (fields of `datetime.now()`). -/
structure DateTime where
  year : Nat
  month : Nat
  day : Nat
  hour : Nat
  minute : Nat
  second : Nat
  microsecond : Nat
deriving DecidableEq

/-- Chronological order of timestamps: lexicographic on the fields. -/
def dtLt (a b : DateTime) : Prop :=
  a.year < b.year ∨ (a.year = b.year ∧
    (a.month < b.month ∨ (a.month = b.month ∧
      (a.day < b.day ∨ (a.day = b.day ∧
        (a.hour < b.hour ∨ (a.hour = b.hour ∧
          (a.minute < b.minute ∨ (a.minute = b.minute ∧
            (a.second < b.second ∨ (a.second = b.second ∧
              a.microsecond < b.microsecond)))))))))))

instance (a b : DateTime) : Decidable (dtLt a b) := by
  unfold dtLt
  infer_instance

/-- The decimal digit character for `n < 10`. -/
def digitChar (n : Nat) : Char := Char.ofNat (48 + n)

/-- Zero-padded decimal rendering of `v` on exactly `n` digits (the
strftime field widths: `%m` etc. pad to 2, `%Y` to 4, `%f` to 6). -/
def padChars : Nat → Nat → List Char
  | 0, _ => []
  | n + 1, v => digitChar (v / 10 ^ n) :: padChars n (v % 10 ^ n)

/-- One character of the key format after `re.sub(r'([YymdHMSf])',
r'%\x5c1', fmt)`: a format character expands to its strftime directive's
output, every other character stands for itself. -/
def strftimeChar (dt : DateTime) (c : Char) : List Char :=
  if c = 'Y' then padChars 4 dt.year
  else if c = 'y' then padChars 2 (dt.year % 100)
  else if c = 'm' then padChars 2 dt.month
  else if c = 'd' then padChars 2 dt.day
  else if c = 'H' then padChars 2 dt.hour
  else if c = 'M' then padChars 2 dt.minute
  else if c = 'S' then padChars 2 dt.second
  else if c = 'f' then padChars 6 dt.microsecond
  else [c]

/-- `BaseBackup._build_key`: expand the format over the timestamp. -/
def build_key (fmt : String) (dt : DateTime) : String :=
  ⟨fmt.data.foldr (fun c acc => strftimeChar dt c ++ acc) []⟩

theorem padChars_length : ∀ (n v : Nat), (padChars n v).length = n
  | 0, _ => rfl
  | n + 1, v => by rw [padChars, List.length_cons, padChars_length n]

theorem digitChar_lt (d e : Nat) (hd : d < 10) (he : e < 10) (h : d < e) :
    charLtB (digitChar d) (digitChar e) = true := by
  have key : ∀ d e : Fin 10, d.val < e.val →
      charLtB (digitChar d.val) (digitChar e.val) = true := by decide
  exact key ⟨d, hd⟩ ⟨e, he⟩ h

theorem digitChar_ne (d e : Nat) (hd : d < 10) (he : e < 10) (h : d ≠ e) :
    digitChar d ≠ digitChar e := by
  have key : ∀ d e : Fin 10, d.val ≠ e.val →
      digitChar d.val ≠ digitChar e.val := by decide
  exact key ⟨d, hd⟩ ⟨e, he⟩ h

theorem padChars_mono : ∀ (n v w : Nat), v < w → w < 10 ^ n →
    lexLtB charLtB (padChars n v) (padChars n w) = true
  | 0, v, w, hvw, hw => by
      rw [Nat.pow_zero] at hw
      omega
  | n + 1, v, w, hvw, hw => by
      have hp : 0 < 10 ^ n := Nat.pos_pow_of_pos n (by omega)
      have hv10 : v / 10 ^ n < 10 := by
        rw [Nat.div_lt_iff_lt_mul hp]
        calc v < w := hvw
          _ < 10 ^ (n + 1) := hw
          _ = 10 * 10 ^ n := by ring
      have hw10 : w / 10 ^ n < 10 := by
        rw [Nat.div_lt_iff_lt_mul hp]
        calc w < 10 ^ (n + 1) := hw
          _ = 10 * 10 ^ n := by ring
      rw [padChars, padChars, lexLtB]
      by_cases hde : v / 10 ^ n = w / 10 ^ n
      · rw [hde, if_pos rfl]
        apply padChars_mono n
        · have hv := Nat.div_add_mod v (10 ^ n)
          have hwq := Nat.div_add_mod w (10 ^ n)
          rw [hde] at hv
          omega
        · exact Nat.mod_lt w hp
      · have hlt : v / 10 ^ n < w / 10 ^ n := by
          have : v / 10 ^ n ≤ w / 10 ^ n :=
            Nat.div_le_div_right (Nat.le_of_lt hvw)
          omega
        rw [if_neg (digitChar_ne _ _ hv10 hw10 hde)]
        exact digitChar_lt _ _ hv10 hw10 hlt

theorem lexLtB_append_eq_left {α : Type} [DecidableEq α]
    (ltB : α → α → Bool) :
    ∀ (a s t : List α), lexLtB ltB (a ++ s) (a ++ t) = lexLtB ltB s t
  | [], _, _ => rfl
  | x :: a, s, t => by
      rw [List.cons_append, List.cons_append, lexLtB, if_pos rfl]
      exact lexLtB_append_eq_left ltB a s t

theorem lexLtB_append_lt {α : Type} [DecidableEq α] (ltB : α → α → Bool) :
    ∀ (a b s t : List α), a.length = b.length → lexLtB ltB a b = true →
      lexLtB ltB (a ++ s) (b ++ t) = true
  | [], [], _, _, _, hab => by rw [lexLtB] at hab; cases hab
  | [], _ :: _, _, _, hl, _ => by cases hl
  | _ :: _, [], _, _, hl, _ => by cases hl
  | x :: a, y :: b, s, t, hl, hab => by
      rw [lexLtB] at hab
      rw [List.cons_append, List.cons_append, lexLtB]
      by_cases hxy : x = y
      · rw [if_pos hxy] at hab ⊢
        exact lexLtB_append_lt ltB a b s t (by simpa using hl) hab
      · rw [if_neg hxy] at hab ⊢
        exact hab

/-- Compare two padded fields at the head of two key tails. -/
theorem padChars_field_lt (n v w : Nat) (s t : List Char) (hvw : v < w)
    (hw : w < 10 ^ n) :
    lexLtB charLtB (padChars n v ++ s) (padChars n w ++ t) = true :=
  lexLtB_append_lt charLtB _ _ s t
    (by rw [padChars_length, padChars_length])
    (padChars_mono n v w hvw hw)

/-- The default full format `YmdHMSf` expands to the concatenation of
the zero-padded fields. -/
theorem build_key_full (t : DateTime) :
    (build_key "YmdHMSf" t).data =
      padChars 4 t.year ++ (padChars 2 t.month ++ (padChars 2 t.day ++
        (padChars 2 t.hour ++ (padChars 2 t.minute ++
          (padChars 2 t.second ++ (padChars 6 t.microsecond ++ [])))))) :=
  rfl

/-- Timestamps for the C9 counterexample: December 2020 precedes
January 2021, but under the month-only format the keys are `12` and
`01`. -/
def c9T1 : DateTime := ⟨2020, 12, 1, 0, 0, 0, 0⟩

def c9T2 : DateTime := ⟨2021, 1, 1, 0, 0, 0, 0⟩

/-- C9 counterexample: the claim quantifies over every key format, but
for the format `m` (month only) the key of the earlier timestamp
`2020-12` is `12`, not below the later timestamp `2021-01` key `01`
under string comparison. -/
theorem C9_counterexample :
    dtLt c9T1 c9T2 ∧
    strLtB (build_key "m" c9T1) (build_key "m" c9T2) = false := by
  constructor
  · exact Or.inl (by decide)
  · decide

/-- C9 (amended): for the fixed-width, fixed-field-order, zero-padded
format `YmdHMSf` — year through microsecond, each field rendered on its
full width — the key map is strictly monotone: chronologically ordered
timestamps (with fields in their calendar/strftime ranges, the year
four-digit) yield keys in strictly increasing string order. -/
theorem C9_key_monotone_amended (t1 t2 : DateTime)
    (hy1 : t1.year < 10000) (hy2 : t2.year < 10000)
    (hm1 : t1.month < 100) (hm2 : t2.month < 100)
    (hd1 : t1.day < 100) (hd2 : t2.day < 100)
    (hh1 : t1.hour < 100) (hh2 : t2.hour < 100)
    (hmi1 : t1.minute < 100) (hmi2 : t2.minute < 100)
    (hs1 : t1.second < 100) (hs2 : t2.second < 100)
    (hu1 : t1.microsecond < 1000000) (hu2 : t2.microsecond < 1000000)
    (hlt : dtLt t1 t2) :
    strLtB (build_key "YmdHMSf" t1) (build_key "YmdHMSf" t2) = true := by
  rw [strLtB, build_key_full, build_key_full]
  rcases hlt with hy | ⟨hy, hrest⟩
  · exact padChars_field_lt 4 _ _ _ _ hy (by simpa using hy2)
  · rw [hy, lexLtB_append_eq_left]
    rcases hrest with hm | ⟨hm, hrest⟩
    · exact padChars_field_lt 2 _ _ _ _ hm (by simpa using hm2)
    · rw [hm, lexLtB_append_eq_left]
      rcases hrest with hd | ⟨hd, hrest⟩
      · exact padChars_field_lt 2 _ _ _ _ hd (by simpa using hd2)
      · rw [hd, lexLtB_append_eq_left]
        rcases hrest with hh | ⟨hh, hrest⟩
        · exact padChars_field_lt 2 _ _ _ _ hh (by simpa using hh2)
        · rw [hh, lexLtB_append_eq_left]
          rcases hrest with hmi | ⟨hmi, hrest⟩
          · exact padChars_field_lt 2 _ _ _ _ hmi (by simpa using hmi2)
          · rw [hmi, lexLtB_append_eq_left]
            rcases hrest with hs | ⟨hs, hu⟩
            · exact padChars_field_lt 2 _ _ _ _ hs (by simpa using hs2)
            · rw [hs, lexLtB_append_eq_left]
              exact padChars_field_lt 6 _ _ _ _ hu (by simpa using hu2)

theorem C9_key_monotone_amended_witness :
    strLtB
      (build_key "YmdHMSf" ⟨2024, 1, 2, 3, 4, 5, 6⟩)
      (build_key "YmdHMSf" ⟨2024, 1, 2, 3, 4, 5, 7⟩) = true :=
  C9_key_monotone_amended ⟨2024, 1, 2, 3, 4, 5, 6⟩ ⟨2024, 1, 2, 3, 4, 5, 7⟩
    (by decide) (by decide) (by decide) (by decide) (by decide) (by decide)
    (by decide) (by decide) (by decide) (by decide) (by decide) (by decide)
    (by decide) (by decide)
    (Or.inr ⟨rfl, Or.inr ⟨rfl, Or.inr ⟨rfl, Or.inr ⟨rfl, Or.inr ⟨rfl,
      Or.inr ⟨rfl, by decide⟩⟩⟩⟩⟩⟩)

end Bcup
